import Mathlib

/-!
Verification of the collection serialization adapters of rustc-serialize
(`src/collection_impls.rs`).

The Rust code connects seven container kinds (DList, RingBuf, BTreeMap,
BTreeSet, HashMap, HashSet, VecMap) to a visitor-style Encoder/Decoder
protocol.  We embed the protocol shallowly: an encoder backend is a record
of five operations over an explicit encoder state, a decoder backend a
record of five operations over an explicit decoder state; `&mut self`
becomes state passing, `Result<T, Error>` becomes `Except ε T` paired with
the updated state (so that, as in Rust, the backend state survives an
error).  Containers are modelled by their entry lists together with the
insertion routines the Rust standard library uses for them; well-formedness
(sortedness of tree containers, key uniqueness of hash containers) is a
separate predicate.  A trace-recording encoder backend and a token-stream
decoder backend make visitation order, arity and round trips provable.
-/

set_option maxHeartbeats 1000000

variable {α β κ ν υ σ δ ε : Type} {γ : Type}

/-- Events exchanged with a backend: frame announcements, per-index
element/key/value visitation marks, and the atoms written by the element
encoders themselves. -/
inductive Ev (υ : Type) : Type where
  | seqFrame : Nat → Ev υ
  | seqElt : Nat → Ev υ
  | mapFrame : Nat → Ev υ
  | mapKey : Nat → Ev υ
  | mapVal : Nat → Ev υ
  | atom : υ → Ev υ
deriving DecidableEq

/-- The encoder half of the protocol (`Encoder` trait): `emit_seq`,
`emit_seq_elt`, `emit_map`, `emit_map_elt_key`, `emit_map_elt_val`.
Each operation receives the closure the adapter passes and the current
backend state. -/
structure EncoderOps (σ ε : Type) : Type where
  emit_seq : Nat → (σ → Except ε Unit × σ) → σ → Except ε Unit × σ
  emit_seq_elt : Nat → (σ → Except ε Unit × σ) → σ → Except ε Unit × σ
  emit_map : Nat → (σ → Except ε Unit × σ) → σ → Except ε Unit × σ
  emit_map_elt_key : Nat → (σ → Except ε Unit × σ) → σ → Except ε Unit × σ
  emit_map_elt_val : Nat → (σ → Except ε Unit × σ) → σ → Except ε Unit × σ

/-- The decoder half of the protocol (`Decoder` trait): `read_seq` hands
the reported length to its body, `read_seq_elt` runs an element decoder,
and symmetrically for maps. -/
structure DecoderOps (δ ε : Type) : Type 1 where
  read_seq : {β : Type} → (Nat → δ → Except ε β × δ) → δ → Except ε β × δ
  read_seq_elt : {β : Type} → Nat → (δ → Except ε β × δ) → δ → Except ε β × δ
  read_map : {β : Type} → (Nat → δ → Except ε β × δ) → δ → Except ε β × δ
  read_map_elt_key : {β : Type} → Nat → (δ → Except ε β × δ) → δ → Except ε β × δ
  read_map_elt_val : {β : Type} → Nat → (δ → Except ε β × δ) → δ → Except ε β × δ

/-- Trace-recording encoder backend: the state is the list of events
emitted so far; every operation appends its event and runs the body. -/
def traceEnc : EncoderOps (List (Ev υ)) ε where
  emit_seq := fun len body s => body (s ++ [Ev.seqFrame len])
  emit_seq_elt := fun i body s => body (s ++ [Ev.seqElt i])
  emit_map := fun len body s => body (s ++ [Ev.mapFrame len])
  emit_map_elt_key := fun i body s => body (s ++ [Ev.mapKey i])
  emit_map_elt_val := fun i body s => body (s ++ [Ev.mapVal i])

/-- Element encoder writing one atom: the shallow embedding of
`e.encode(s)` against the trace backend, where `g` serializes the
element into an atom payload. -/
def atomEnc (g : α → υ) (a : α) : List (Ev υ) → Except ε Unit × List (Ev υ) :=
  fun s => (Except.ok (), s ++ [Ev.atom (g a)])

/-- Element encoder that records one atom and then returns the prescribed
outcome; used to exercise failure propagation through the adapters. -/
def outcomeEnc (h : Except ε Unit → υ) (r : Except ε Unit) :
    List (Ev υ) → Except ε Unit × List (Ev υ) :=
  fun s => (r, s ++ [Ev.atom (h r)])

/-- Key encoder driven by a per-key outcome oracle: records the key's
atom, then returns the oracle's outcome for that key; used to exercise
failure propagation on the key path of the map encodes. -/
def oracleEnc (g : κ → Except ε Unit) (gK : κ → υ) (k : κ) :
    List (Ev υ) → Except ε Unit × List (Ev υ) :=
  fun s => (g k, s ++ [Ev.atom (gK k)])

/-- Decoder state: the remaining token stream, and a log of the frame and
element/key/value reads performed so far. -/
abbrev DState (υ : Type) : Type := List (Ev υ) × List (Ev υ)

/-- Token-stream decoder backend: each operation consumes its matching
token from the stream (checking that the index the adapter announces is
the one recorded), appends it to the read log and runs the body; any
mismatch yields the backend error `e0`. -/
def streamDec (e0 : ε) : DecoderOps (DState υ) ε where
  read_seq := fun body d =>
    match d with
    | (Ev.seqFrame len :: rest, log) => body len (rest, log ++ [Ev.seqFrame len])
    | other => (Except.error e0, other)
  read_seq_elt := fun i body d =>
    match d with
    | (Ev.seqElt j :: rest, log) =>
      if j = i then body (rest, log ++ [Ev.seqElt j]) else (Except.error e0, d)
    | other => (Except.error e0, other)
  read_map := fun body d =>
    match d with
    | (Ev.mapFrame len :: rest, log) => body len (rest, log ++ [Ev.mapFrame len])
    | other => (Except.error e0, other)
  read_map_elt_key := fun i body d =>
    match d with
    | (Ev.mapKey j :: rest, log) =>
      if j = i then body (rest, log ++ [Ev.mapKey j]) else (Except.error e0, d)
    | other => (Except.error e0, other)
  read_map_elt_val := fun i body d =>
    match d with
    | (Ev.mapVal j :: rest, log) =>
      if j = i then body (rest, log ++ [Ev.mapVal j]) else (Except.error e0, d)
    | other => (Except.error e0, other)

/-- Element decoder reading one atom: the shallow embedding of
`Decodable::decode(d)` against the stream backend, where `f` parses the
atom payload. -/
def atomDec (e0 : ε) (f : υ → Except ε β) : DState υ → Except ε β × DState υ :=
  fun d =>
    match d with
    | (Ev.atom u :: rest, log) => (f u, (rest, log))
    | other => (Except.error e0, other)

/-- Parse a key atom out of a key-or-value payload. -/
def inlDec (e0 : ε) : κ ⊕ ν → Except ε κ :=
  fun u => match u with
  | Sum.inl k => Except.ok k
  | Sum.inr _ => Except.error e0

/-- Parse a value atom out of a key-or-value payload. -/
def inrDec (e0 : ε) : κ ⊕ ν → Except ε ν :=
  fun u => match u with
  | Sum.inl _ => Except.error e0
  | Sum.inr v => Except.ok v

/-- Key parser over payloads that record the key decoder's outcome
directly; used to exercise decode-failure propagation. -/
def exlDec (e0 : ε) : Except ε κ ⊕ Except ε ν → Except ε κ :=
  fun u => match u with
  | Sum.inl r => r
  | Sum.inr _ => Except.error e0

/-- Value parser over payloads that record the value decoder's outcome
directly. -/
def exrDec (e0 : ε) : Except ε κ ⊕ Except ε ν → Except ε ν :=
  fun u => match u with
  | Sum.inl _ => Except.error e0
  | Sum.inr r => r

/-! ## Container models

Each container kind is modelled by its iteration list (the order its
Rust iterator yields), plus the insertion routine its `Decodable`
implementation calls.  Well-formedness is a separate predicate. -/

/-- `DList<T>`: a doubly linked list, iteration order front to back. -/
abbrev DList (α : Type) : Type := List α

/-- `DList::new()`. -/
def DList.new : DList α := []

/-- `DList::push_back`. -/
def DList.push_back (l : DList α) (a : α) : DList α := l ++ [a]

/-- `RingBuf<T>`: a double-ended queue, iteration order front to back. -/
abbrev RingBuf (α : Type) : Type := List α

/-- `RingBuf::new()`. -/
def RingBuf.new : RingBuf α := []

/-- `RingBuf::push_back`. -/
def RingBuf.push_back (q : RingBuf α) (a : α) : RingBuf α := q ++ [a]

/-- Insertion into an association list kept sorted by strictly increasing
keys; an equal key has its value replaced (the `BTreeMap::insert`
semantics). -/
def insertSorted [LinearOrder κ] : List (κ × ν) → κ → ν → List (κ × ν)
  | [], k, v => [(k, v)]
  | p :: rest, k, v =>
    if k < p.1 then (k, v) :: p :: rest
    else if k = p.1 then (k, v) :: rest
    else p :: insertSorted rest k v

/-- First-match association lookup. -/
def assocGet [DecidableEq κ] : List (κ × ν) → κ → Option ν
  | [], _ => none
  | p :: rest, k => if k = p.1 then some p.2 else assocGet rest k

/-- Value of the last pair carrying key `k`, if any. -/
def lastGet [DecidableEq κ] : List (κ × ν) → κ → Option ν
  | [], _ => none
  | p :: rest, k =>
    match lastGet rest k with
    | some w => some w
    | none => if k = p.1 then some p.2 else none

/-- `BTreeMap<K, V>`: modelled by its entry list in iteration (ascending
key) order. -/
abbrev BTreeMap (κ ν : Type) : Type := List (κ × ν)

/-- `BTreeMap::new()`. -/
def BTreeMap.new : BTreeMap κ ν := []

/-- `BTreeMap::insert`: ordered insert, replacing the value of an equal
key. -/
def BTreeMap.insert [LinearOrder κ] (m : BTreeMap κ ν) (k : κ) (v : ν) : BTreeMap κ ν :=
  insertSorted m k v

/-- `BTreeMap::len()`. -/
def BTreeMap.len (m : BTreeMap κ ν) : Nat := m.length

/-- `BTreeMap::get`. -/
def BTreeMap.get [DecidableEq κ] (m : BTreeMap κ ν) (k : κ) : Option ν := assocGet m k

/-- Well-formedness of a `BTreeMap` model: keys strictly ascending along
the iteration order. -/
abbrev BTreeMap.WF [LinearOrder κ] (m : BTreeMap κ ν) : Prop :=
  m.Pairwise (fun p q => p.1 < q.1)

/-- Insertion into a strictly sorted element list; an element already
present leaves the list unchanged (the `BTreeSet::insert` semantics). -/
def insertOrd [LinearOrder α] : List α → α → List α
  | [], a => [a]
  | b :: rest, a =>
    if a < b then a :: b :: rest
    else if a = b then b :: rest
    else b :: insertOrd rest a

/-- `BTreeSet<T>`: modelled by its element list in ascending order. -/
abbrev BTreeSet (α : Type) : Type := List α

/-- `BTreeSet::new()`. -/
def BTreeSet.new : BTreeSet α := []

/-- `BTreeSet::insert`. -/
def BTreeSet.insert [LinearOrder α] (s : BTreeSet α) (a : α) : BTreeSet α :=
  insertOrd s a

/-- `BTreeSet::len()`. -/
def BTreeSet.len (s : BTreeSet α) : Nat := s.length

/-- Well-formedness of a `BTreeSet` model: elements strictly ascending. -/
abbrev BTreeSet.WF [LinearOrder α] (s : BTreeSet α) : Prop :=
  s.Pairwise (fun a b => a < b)

/-- Association-list update: replace the value at the first occurrence of
the key, else append (the `HashMap::insert` semantics on our model, whose
iteration order is the order entries were first inserted). -/
def assocUpd [DecidableEq κ] : List (κ × ν) → κ → ν → List (κ × ν)
  | [], k, v => [(k, v)]
  | p :: rest, k, v =>
    if k = p.1 then (k, v) :: rest else p :: assocUpd rest k v

/-- `HashMap<K, V, H>`: modelled by its entry list in iteration order plus
the table capacity; the hasher carries no data we model. -/
structure HashMap (κ ν : Type) : Type where
  entries : List (κ × ν)
  cap : Nat
deriving DecidableEq

/-- `HashMap::with_capacity_and_hasher`. -/
def HashMap.with_capacity_and_hasher (n : Nat) : HashMap κ ν :=
  { entries := [], cap := n }

/-- `HashMap::insert`: update the entry list, growing the capacity exactly
when the new entry count exceeds it. -/
def HashMap.insert [DecidableEq κ] (m : HashMap κ ν) (k : κ) (v : ν) : HashMap κ ν :=
  { entries := assocUpd m.entries k v
    cap := Nat.max m.cap (assocUpd m.entries k v).length }

/-- `HashMap::len()`. -/
def HashMap.len (m : HashMap κ ν) : Nat := m.entries.length

/-- `HashMap::get`. -/
def HashMap.get [DecidableEq κ] (m : HashMap κ ν) (k : κ) : Option ν :=
  assocGet m.entries k

/-- Well-formedness of a `HashMap` model: keys pairwise distinct. -/
abbrev HashMap.WF (m : HashMap κ ν) : Prop :=
  (m.entries.map Prod.fst).Nodup

/-- Element-list update for hash sets: an element already present leaves
the list unchanged, otherwise it is appended. -/
def setUpd [DecidableEq α] : List α → α → List α
  | [], a => [a]
  | b :: rest, a => if a = b then b :: rest else b :: setUpd rest a

/-- `HashSet<T, H>`: modelled by its element list in iteration order plus
the table capacity. -/
structure HashSet (α : Type) : Type where
  elems : List α
  cap : Nat
deriving DecidableEq

/-- `HashSet::with_capacity_and_hasher`. -/
def HashSet.with_capacity_and_hasher (n : Nat) : HashSet α :=
  { elems := [], cap := n }

/-- `HashSet::insert`. -/
def HashSet.insert [DecidableEq α] (s : HashSet α) (a : α) : HashSet α :=
  { elems := setUpd s.elems a
    cap := Nat.max s.cap (setUpd s.elems a).length }

/-- `HashSet::len()`. -/
def HashSet.len (s : HashSet α) : Nat := s.elems.length

/-- Well-formedness of a `HashSet` model: elements pairwise distinct. -/
abbrev HashSet.WF (s : HashSet α) : Prop := s.elems.Nodup

/-- `VecMap<V>`: a map from non-negative integers, iteration in ascending
key order — the same abstract behaviour as the sorted map model keyed by
`Nat`. -/
abbrev VecMap (ν : Type) : Type := BTreeMap Nat ν

/-- `VecMap::new()`. -/
def VecMap.new : VecMap ν := BTreeMap.new

/-- `VecMap::insert`. -/
def VecMap.insert (m : VecMap ν) (k : Nat) (v : ν) : VecMap ν :=
  BTreeMap.insert m k v

/-- `VecMap::len()`. -/
def VecMap.len (m : VecMap ν) : Nat := BTreeMap.len m

/-- `VecMap::get`. -/
def VecMap.get (m : VecMap ν) (k : Nat) : Option ν := BTreeMap.get m k

/-- Well-formedness of a `VecMap` model. -/
abbrev VecMap.WF (m : VecMap ν) : Prop := BTreeMap.WF m

/-! ## The adapter loops

The `for` loops all adapters share, written as structural recursion.  The
sequence encode loop is `for (i, e) in self.iter().enumerate() {
try!(s.emit_seq_elt(i, |s| e.encode(s))); }` (the `let mut i = 0` variant
of the set implementations is the same loop); the map encode loop emits
key then value per entry.  The decode loops run `len` iterations, insert
each decoded item with the container's own insertion and stop at the
first failure, exactly as `try!` does. -/

def encodeSeqElts (E : EncoderOps σ ε) (encT : α → σ → Except ε Unit × σ) :
    List α → Nat → σ → Except ε Unit × σ
  | [], _, s => (Except.ok (), s)
  | e :: es, i, s =>
    match E.emit_seq_elt i (encT e) s with
    | (Except.error err, s2) => (Except.error err, s2)
    | (Except.ok _, s2) => encodeSeqElts E encT es (i + 1) s2

def encodeMapElts (E : EncoderOps σ ε) (encK : κ → σ → Except ε Unit × σ)
    (encV : ν → σ → Except ε Unit × σ) :
    List (κ × ν) → Nat → σ → Except ε Unit × σ
  | [], _, s => (Except.ok (), s)
  | p :: ps, i, s =>
    match E.emit_map_elt_key i (encK p.1) s with
    | (Except.error err, s2) => (Except.error err, s2)
    | (Except.ok _, s2) =>
      match E.emit_map_elt_val i (encV p.2) s2 with
      | (Except.error err, s3) => (Except.error err, s3)
      | (Except.ok _, s3) => encodeMapElts E encK encV ps (i + 1) s3

def decodeSeqElts (D : DecoderOps δ ε) (decT : δ → Except ε α × δ)
    (ins : γ → α → γ) : Nat → Nat → γ → δ → Except ε γ × δ
  | _, 0, c, d => (Except.ok c, d)
  | i, n + 1, c, d =>
    match D.read_seq_elt i decT d with
    | (Except.error err, d2) => (Except.error err, d2)
    | (Except.ok a, d2) => decodeSeqElts D decT ins (i + 1) n (ins c a) d2

def decodeMapElts (D : DecoderOps δ ε) (decK : δ → Except ε κ × δ)
    (decV : δ → Except ε ν × δ) (ins : γ → κ → ν → γ) :
    Nat → Nat → γ → δ → Except ε γ × δ
  | _, 0, c, d => (Except.ok c, d)
  | i, n + 1, c, d =>
    match D.read_map_elt_key i decK d with
    | (Except.error err, d2) => (Except.error err, d2)
    | (Except.ok k, d2) =>
      match D.read_map_elt_val i decV d2 with
      | (Except.error err, d3) => (Except.error err, d3)
      | (Except.ok v, d3) => decodeMapElts D decK decV ins (i + 1) n (ins c k v) d3

/-! ## The adapters, one per impl in the source -/

/-- `impl Encodable for DList<T>`. -/
def DList.encode (E : EncoderOps σ ε) (encT : α → σ → Except ε Unit × σ)
    (l : DList α) : σ → Except ε Unit × σ :=
  fun s => E.emit_seq (List.length l) (fun s => encodeSeqElts E encT l 0 s) s

/-- `impl Decodable for DList<T>`. -/
def DList.decode (D : DecoderOps δ ε) (decT : δ → Except ε α × δ) :
    δ → Except ε (DList α) × δ :=
  D.read_seq (fun len d => decodeSeqElts D decT DList.push_back 0 len DList.new d)

/-- `impl Encodable for RingBuf<T>`. -/
def RingBuf.encode (E : EncoderOps σ ε) (encT : α → σ → Except ε Unit × σ)
    (q : RingBuf α) : σ → Except ε Unit × σ :=
  fun s => E.emit_seq (List.length q) (fun s => encodeSeqElts E encT q 0 s) s

/-- `impl Decodable for RingBuf<T>`. -/
def RingBuf.decode (D : DecoderOps δ ε) (decT : δ → Except ε α × δ) :
    δ → Except ε (RingBuf α) × δ :=
  D.read_seq (fun len d => decodeSeqElts D decT RingBuf.push_back 0 len RingBuf.new d)

/-- `impl Encodable for BTreeMap<K, V>`. -/
def BTreeMap.encode (E : EncoderOps σ ε) (encK : κ → σ → Except ε Unit × σ)
    (encV : ν → σ → Except ε Unit × σ) (m : BTreeMap κ ν) :
    σ → Except ε Unit × σ :=
  fun s => E.emit_map (BTreeMap.len m) (fun s => encodeMapElts E encK encV m 0 s) s

/-- `impl Decodable for BTreeMap<K, V>`. -/
def BTreeMap.decode [LinearOrder κ] (D : DecoderOps δ ε)
    (decK : δ → Except ε κ × δ) (decV : δ → Except ε ν × δ) :
    δ → Except ε (BTreeMap κ ν) × δ :=
  D.read_map (fun len d => decodeMapElts D decK decV BTreeMap.insert 0 len BTreeMap.new d)

/-- `impl Encodable for BTreeSet<T>`. -/
def BTreeSet.encode (E : EncoderOps σ ε) (encT : α → σ → Except ε Unit × σ)
    (s : BTreeSet α) : σ → Except ε Unit × σ :=
  fun st => E.emit_seq (BTreeSet.len s) (fun st => encodeSeqElts E encT s 0 st) st

/-- `impl Decodable for BTreeSet<T>`. -/
def BTreeSet.decode [LinearOrder α] (D : DecoderOps δ ε)
    (decT : δ → Except ε α × δ) : δ → Except ε (BTreeSet α) × δ :=
  D.read_seq (fun len d => decodeSeqElts D decT BTreeSet.insert 0 len BTreeSet.new d)

/-- `impl Encodable for HashMap<K, V, H>`. -/
def HashMap.encode (E : EncoderOps σ ε) (encK : κ → σ → Except ε Unit × σ)
    (encV : ν → σ → Except ε Unit × σ) (m : HashMap κ ν) :
    σ → Except ε Unit × σ :=
  fun s => E.emit_map (HashMap.len m) (fun s => encodeMapElts E encK encV m.entries 0 s) s

/-- `impl Decodable for HashMap<K, V, S, H>`; the `Default::default()`
hasher carries no data in the model. -/
def HashMap.decode [DecidableEq κ] (D : DecoderOps δ ε)
    (decK : δ → Except ε κ × δ) (decV : δ → Except ε ν × δ) :
    δ → Except ε (HashMap κ ν) × δ :=
  D.read_map (fun len d =>
    decodeMapElts D decK decV HashMap.insert 0 len (HashMap.with_capacity_and_hasher len) d)

/-- `impl Encodable for HashSet<T, H>`. -/
def HashSet.encode (E : EncoderOps σ ε) (encT : α → σ → Except ε Unit × σ)
    (s : HashSet α) : σ → Except ε Unit × σ :=
  fun st => E.emit_seq (HashSet.len s) (fun st => encodeSeqElts E encT s.elems 0 st) st

/-- `impl Decodable for HashSet<T, S, H>`. -/
def HashSet.decode [DecidableEq α] (D : DecoderOps δ ε)
    (decT : δ → Except ε α × δ) : δ → Except ε (HashSet α) × δ :=
  D.read_seq (fun len d =>
    decodeSeqElts D decT HashSet.insert 0 len (HashSet.with_capacity_and_hasher len) d)

/-- `impl Encodable for VecMap<V>`. -/
def VecMap.encode (E : EncoderOps σ ε) (encK : Nat → σ → Except ε Unit × σ)
    (encV : ν → σ → Except ε Unit × σ) (m : VecMap ν) :
    σ → Except ε Unit × σ :=
  fun s => E.emit_map (VecMap.len m) (fun s => encodeMapElts E encK encV m 0 s) s

/-- `impl Decodable for VecMap<V>`. -/
def VecMap.decode (D : DecoderOps δ ε) (decK : δ → Except ε Nat × δ)
    (decV : δ → Except ε ν × δ) : δ → Except ε (VecMap ν) × δ :=
  D.read_map (fun len d => decodeMapElts D decK decV VecMap.insert 0 len VecMap.new d)

/-! ## Trace vocabulary -/

/-- The tokens a sequence encode starting at index `i` writes through the
trace backend: one `seqElt` mark and one atom per element. -/
def seqTokens (g : α → υ) : List α → Nat → List (Ev υ)
  | [], _ => []
  | a :: as, i => Ev.seqElt i :: Ev.atom (g a) :: seqTokens g as (i + 1)

/-- The tokens a map encode starting at index `i` writes: per entry a
`mapKey` mark, the key atom, a `mapVal` mark, the value atom. -/
def mapTokens (gK : κ → υ) (gV : ν → υ) : List (κ × ν) → Nat → List (Ev υ)
  | [], _ => []
  | p :: ps, i =>
    Ev.mapKey i :: Ev.atom (gK p.1) :: Ev.mapVal i :: Ev.atom (gV p.2) ::
      mapTokens gK gV ps (i + 1)

/-- Indices of the `emit_seq_elt` calls recorded in a trace. -/
def seqEltIndices : List (Ev υ) → List Nat
  | [] => []
  | Ev.seqElt i :: tr => i :: seqEltIndices tr
  | _ :: tr => seqEltIndices tr

/-- Indices of the `emit_map_elt_key` calls recorded in a trace. -/
def mapKeyIndices : List (Ev υ) → List Nat
  | [] => []
  | Ev.mapKey i :: tr => i :: mapKeyIndices tr
  | _ :: tr => mapKeyIndices tr

/-- Indices of the `emit_map_elt_val` calls recorded in a trace. -/
def mapValIndices : List (Ev υ) → List Nat
  | [] => []
  | Ev.mapVal i :: tr => i :: mapValIndices tr
  | _ :: tr => mapValIndices tr

/-- A key or value visitation call with its index. -/
inductive MapCall : Type where
  | key : Nat → MapCall
  | val : Nat → MapCall
deriving DecidableEq

/-- The subsequence of key/value visitation calls in a trace. -/
def mapCalls : List (Ev υ) → List MapCall
  | [] => []
  | Ev.mapKey i :: tr => MapCall.key i :: mapCalls tr
  | Ev.mapVal i :: tr => MapCall.val i :: mapCalls tr
  | _ :: tr => mapCalls tr

/-- The expected key/value call pattern for `n` entries starting at index
`i`: key then value for each index, indices increasing by one. -/
def pairCalls : Nat → Nat → List MapCall
  | 0, _ => []
  | n + 1, i => MapCall.key i :: MapCall.val i :: pairCalls n (i + 1)

/-- The read log a successful map decode of `n` pairs starting at index
`i` accumulates: one `mapKey` and one `mapVal` read per pair. -/
def mapReadLog : Nat → Nat → List (Ev υ)
  | 0, _ => []
  | n + 1, i => Ev.mapKey i :: Ev.mapVal i :: mapReadLog n (i + 1)

/-! ## Behaviour of the loops over the concrete backends -/

/-- Projection of the trace backend: a sequence frame. -/
theorem traceEnc_seq (len : Nat) (body : List (Ev υ) → Except ε Unit × List (Ev υ)) (s : List (Ev υ)) :
    (traceEnc : EncoderOps (List (Ev υ)) ε).emit_seq len body s = body (s ++ [Ev.seqFrame len]) := rfl

/-- Projection of the trace backend: an element visit. -/
theorem traceEnc_seqElt (i : Nat) (body : List (Ev υ) → Except ε Unit × List (Ev υ)) (s : List (Ev υ)) :
    (traceEnc : EncoderOps (List (Ev υ)) ε).emit_seq_elt i body s = body (s ++ [Ev.seqElt i]) := rfl

/-- Projection of the trace backend: a map frame. -/
theorem traceEnc_map (len : Nat) (body : List (Ev υ) → Except ε Unit × List (Ev υ)) (s : List (Ev υ)) :
    (traceEnc : EncoderOps (List (Ev υ)) ε).emit_map len body s = body (s ++ [Ev.mapFrame len]) := rfl

/-- Projection of the trace backend: a key visit. -/
theorem traceEnc_mapKey (i : Nat) (body : List (Ev υ) → Except ε Unit × List (Ev υ)) (s : List (Ev υ)) :
    (traceEnc : EncoderOps (List (Ev υ)) ε).emit_map_elt_key i body s = body (s ++ [Ev.mapKey i]) := rfl

/-- Projection of the trace backend: a value visit. -/
theorem traceEnc_mapVal (i : Nat) (body : List (Ev υ) → Except ε Unit × List (Ev υ)) (s : List (Ev υ)) :
    (traceEnc : EncoderOps (List (Ev υ)) ε).emit_map_elt_val i body s = body (s ++ [Ev.mapVal i]) := rfl

/-- Projection of the stream backend: reading a sequence frame. -/
theorem streamDec_seq (e0 : ε) (body : Nat → DState υ → Except ε β × DState υ)
    (len : Nat) (rest log : List (Ev υ)) :
    (streamDec e0).read_seq body (Ev.seqFrame len :: rest, log)
      = body len (rest, log ++ [Ev.seqFrame len]) := rfl

/-- Projection of the stream backend: reading the element whose index
matches the announced one. -/
theorem streamDec_seqElt (e0 : ε) (i : Nat) (body : DState υ → Except ε β × DState υ)
    (rest log : List (Ev υ)) :
    (streamDec e0).read_seq_elt i body (Ev.seqElt i :: rest, log)
      = body (rest, log ++ [Ev.seqElt i]) := by
  simp [streamDec]

/-- Projection of the stream backend: reading a map frame. -/
theorem streamDec_map (e0 : ε) (body : Nat → DState υ → Except ε β × DState υ)
    (len : Nat) (rest log : List (Ev υ)) :
    (streamDec e0).read_map body (Ev.mapFrame len :: rest, log)
      = body len (rest, log ++ [Ev.mapFrame len]) := rfl

/-- Projection of the stream backend: reading a matching key mark. -/
theorem streamDec_mapKey (e0 : ε) (i : Nat) (body : DState υ → Except ε β × DState υ)
    (rest log : List (Ev υ)) :
    (streamDec e0).read_map_elt_key i body (Ev.mapKey i :: rest, log)
      = body (rest, log ++ [Ev.mapKey i]) := by
  simp [streamDec]

/-- Projection of the stream backend: reading a matching value mark. -/
theorem streamDec_mapVal (e0 : ε) (i : Nat) (body : DState υ → Except ε β × DState υ)
    (rest log : List (Ev υ)) :
    (streamDec e0).read_map_elt_val i body (Ev.mapVal i :: rest, log)
      = body (rest, log ++ [Ev.mapVal i]) := by
  simp [streamDec]

/-- Reading one atom off the stream. -/
theorem atomDec_atom (e0 : ε) (f : υ → Except ε β) (u : υ) (rest log : List (Ev υ)) :
    atomDec e0 f (Ev.atom u :: rest, log) = (f u, (rest, log)) := rfl

/-- The sequence encode loop over the trace backend succeeds and appends
exactly the `seqTokens` of the list, starting at the given index. -/
theorem encodeSeqElts_trace (g : α → υ) (as : List α) :
    ∀ (i : Nat) (s : List (Ev υ)),
      encodeSeqElts (traceEnc : EncoderOps (List (Ev υ)) ε) (atomEnc g) as i s
        = (Except.ok (), s ++ seqTokens g as i) := by
  induction as with
  | nil => intro i s; simp [encodeSeqElts, seqTokens]
  | cons a as ih =>
    intro i s
    simp [encodeSeqElts, seqTokens, traceEnc_seqElt, atomEnc, ih]

/-- The map encode loop over the trace backend succeeds and appends
exactly the `mapTokens` of the entry list. -/
theorem encodeMapElts_trace (gK : κ → υ) (gV : ν → υ) (ps : List (κ × ν)) :
    ∀ (i : Nat) (s : List (Ev υ)),
      encodeMapElts (traceEnc : EncoderOps (List (Ev υ)) ε) (atomEnc gK) (atomEnc gV) ps i s
        = (Except.ok (), s ++ mapTokens gK gV ps i) := by
  induction ps with
  | nil => intro i s; simp [encodeMapElts, mapTokens]
  | cons p ps ih =>
    intro i s
    simp [encodeMapElts, mapTokens, traceEnc_mapKey, traceEnc_mapVal, atomEnc, ih]

/-- The sequence decode loop over the stream backend consumes exactly the
`seqTokens` of a list, folds the container insertion over the decoded
elements, and logs one element read per index. -/
theorem decodeSeqElts_rt (e0 : ε) (f : υ → Except ε α) (g : α → υ)
    (hfg : ∀ a, f (g a) = Except.ok a) (ins : γ → α → γ) (as : List α) :
    ∀ (i : Nat) (c : γ) (rest log : List (Ev υ)),
      decodeSeqElts (streamDec e0) (atomDec e0 f) ins i (List.length as) c
          (seqTokens g as i ++ rest, log)
        = (Except.ok (List.foldl ins c as),
           (rest, log ++ (List.range' i (List.length as)).map Ev.seqElt)) := by
  induction as with
  | nil => intro i c rest log; simp [decodeSeqElts, seqTokens, List.range']
  | cons a as ih =>
    intro i c rest log
    simp [decodeSeqElts, seqTokens, streamDec_seqElt, atomDec_atom, hfg, ih, List.range']

/-- The map decode loop over the stream backend consumes exactly the
`mapTokens` of a pair list, folds the container insertion over the decoded
pairs, and logs one key read and one value read per index. -/
theorem decodeMapElts_rt (e0 : ε) (fK : υ → Except ε κ) (gK : κ → υ)
    (fV : υ → Except ε ν) (gV : ν → υ)
    (hK : ∀ k, fK (gK k) = Except.ok k) (hV : ∀ v, fV (gV v) = Except.ok v)
    (ins : γ → κ → ν → γ) (ps : List (κ × ν)) :
    ∀ (i : Nat) (c : γ) (rest log : List (Ev υ)),
      decodeMapElts (streamDec e0) (atomDec e0 fK) (atomDec e0 fV) ins i
          (List.length ps) c (mapTokens gK gV ps i ++ rest, log)
        = (Except.ok (List.foldl (fun c p => ins c p.1 p.2) c ps),
           (rest, log ++ mapReadLog (List.length ps) i)) := by
  induction ps with
  | nil => intro i c rest log; simp [decodeMapElts, mapTokens, mapReadLog]
  | cons p ps ih =>
    intro i c rest log
    simp [decodeMapElts, mapTokens, mapReadLog, streamDec_mapKey, streamDec_mapVal,
      atomDec_atom, hK, hV, ih]

/-- Folding tail insertion over a list appends the list: the decode loop
of the sequence kinds preserves encoded order verbatim. -/
theorem foldl_append_eq (as : List α) :
    ∀ c : List α, List.foldl (fun l a => l ++ [a]) c as = c ++ as := by
  induction as with
  | nil => intro c; simp
  | cons a as ih => intro c; simp [ih]

/-- The element-visitation indices in a sequence token block are exactly
the consecutive range starting at the block's first index. -/
theorem seqEltIndices_seqTokens (g : α → υ) (as : List α) :
    ∀ i : Nat, seqEltIndices (seqTokens g as i) = List.range' i (List.length as) := by
  induction as with
  | nil => intro i; simp [seqTokens, seqEltIndices, List.range']
  | cons a as ih => intro i; simp [seqTokens, seqEltIndices, List.range', ih]

/-- seqEltIndices distributes over appends. -/
theorem seqEltIndices_append (tr₁ tr₂ : List (Ev υ)) :
    seqEltIndices (tr₁ ++ tr₂) = seqEltIndices tr₁ ++ seqEltIndices tr₂ := by
  induction tr₁ with
  | nil => simp [seqEltIndices]
  | cons ev tr ih => cases ev <;> simp [seqEltIndices, ih]

/-- The key-visitation indices in a map token block are exactly the
consecutive range starting at the block's first index. -/
theorem mapKeyIndices_mapTokens (gK : κ → υ) (gV : ν → υ) (ps : List (κ × ν)) :
    ∀ i : Nat, mapKeyIndices (mapTokens gK gV ps i) = List.range' i (List.length ps) := by
  induction ps with
  | nil => intro i; simp [mapTokens, mapKeyIndices, List.range']
  | cons p ps ih => intro i; simp [mapTokens, mapKeyIndices, List.range', ih]

/-- The value-visitation indices in a map token block are exactly the
consecutive range starting at the block's first index. -/
theorem mapValIndices_mapTokens (gK : κ → υ) (gV : ν → υ) (ps : List (κ × ν)) :
    ∀ i : Nat, mapValIndices (mapTokens gK gV ps i) = List.range' i (List.length ps) := by
  induction ps with
  | nil => intro i; simp [mapTokens, mapValIndices, List.range']
  | cons p ps ih => intro i; simp [mapTokens, mapValIndices, List.range', ih]

/-- The key/value visitation calls in a map token block alternate key
before value, index by index. -/
theorem mapCalls_mapTokens (gK : κ → υ) (gV : ν → υ) (ps : List (κ × ν)) :
    ∀ i : Nat, mapCalls (mapTokens gK gV ps i) = pairCalls (List.length ps) i := by
  induction ps with
  | nil => intro i; simp [mapTokens, mapCalls, pairCalls]
  | cons p ps ih => intro i; simp [mapTokens, mapCalls, pairCalls, ih]

/-! ## Failure propagation through the loops -/

/-- If the element at position `k` of the iteration fails to encode, the
sequence encode loop stops there: the trace contains visits for indices
up to `i + k` only, and the loop returns that failure unchanged. -/
theorem encodeSeqElts_fail (h : Except ε Unit → υ) (er : ε) (k : Nat)
    (rest : List (Except ε Unit)) :
    ∀ (i : Nat) (s : List (Ev υ)),
      encodeSeqElts (traceEnc : EncoderOps (List (Ev υ)) ε) (outcomeEnc h)
          (List.replicate k (Except.ok ()) ++ Except.error er :: rest) i s
        = (Except.error er,
           s ++ seqTokens h (List.replicate k (Except.ok ())) i
             ++ [Ev.seqElt (i + k), Ev.atom (h (Except.error er))]) := by
  induction k with
  | zero =>
    intro i s
    simp [encodeSeqElts, seqTokens, traceEnc_seqElt, outcomeEnc]
  | succ k ih =>
    intro i s
    have hik : i + (k + 1) = (i + 1) + k := by omega
    simp [List.replicate_succ, encodeSeqElts, seqTokens, traceEnc_seqElt, outcomeEnc, ih, hik]

/-- If the value of the entry at position `ks.length` fails to encode
(after a prefix of entries whose keys are `ks` and whose values encode
fine), the map encode loop stops there and returns that failure
unchanged; the trace shows the one extra key/value visit and nothing
beyond it. -/
theorem encodeMapElts_valFail (gK : κ → υ) (h : Except ε Unit → υ) (er : ε)
    (ks : List κ) (kb : κ) (rest : List (κ × Except ε Unit)) :
    ∀ (i : Nat) (s : List (Ev υ)),
      encodeMapElts (traceEnc : EncoderOps (List (Ev υ)) ε) (atomEnc gK) (outcomeEnc h)
          (List.map (fun k => (k, Except.ok ())) ks ++ (kb, Except.error er) :: rest) i s
        = (Except.error er,
           s ++ mapTokens gK h (List.map (fun k => (k, Except.ok ())) ks) i
             ++ [Ev.mapKey (i + ks.length), Ev.atom (gK kb),
                 Ev.mapVal (i + ks.length), Ev.atom (h (Except.error er))]) := by
  induction ks with
  | nil =>
    intro i s
    simp [encodeMapElts, mapTokens, traceEnc_mapKey, traceEnc_mapVal, atomEnc, outcomeEnc]
  | cons kh ks ih =>
    intro i s
    have hik : i + (ks.length + 1) = (i + 1) + ks.length := by omega
    simp [encodeMapElts, mapTokens, traceEnc_mapKey, traceEnc_mapVal, atomEnc, outcomeEnc,
      ih, hik]

/-- If the key of the entry at position `ps.length` fails to encode
(after a prefix of entries whose keys the oracle accepts), the map encode
loop stops at that key visit — the failing entry's value is never
visited, nor any later entry — and returns that failure unchanged. -/
theorem encodeMapElts_keyFail (g : κ → Except ε Unit) (gK : κ → υ) (gV : ν → υ)
    (er : ε) (kb : κ) (hkb : g kb = Except.error er) (vb : ν) (rest : List (κ × ν)) :
    ∀ ps : List (κ × ν), (∀ p ∈ ps, g p.1 = Except.ok ()) →
    ∀ (i : Nat) (s : List (Ev υ)),
      encodeMapElts (traceEnc : EncoderOps (List (Ev υ)) ε) (oracleEnc g gK) (atomEnc gV)
          (ps ++ (kb, vb) :: rest) i s
        = (Except.error er,
           s ++ mapTokens gK gV ps i
             ++ [Ev.mapKey (i + List.length ps), Ev.atom (gK kb)]) := by
  intro ps
  induction ps with
  | nil =>
    intro _ i s
    simp [encodeMapElts, mapTokens, traceEnc_mapKey, oracleEnc, hkb]
  | cons p ps ih =>
    intro hok i s
    have hp : g p.1 = Except.ok () := hok p (by simp)
    have hik : i + (List.length ps + 1) = (i + 1) + List.length ps := by omega
    simp [encodeMapElts, mapTokens, traceEnc_mapKey, traceEnc_mapVal, oracleEnc, atomEnc,
      hp, hik, ih (fun q hq => hok q (List.mem_cons_of_mem _ hq))]

/-- If the element at position `as.length` of the stream fails to decode
(after the elements of `as` decode fine), the sequence decode loop issues
no reads past that element and returns that failure unchanged, however
many more elements the frame announced. -/
theorem decodeSeqElts_fail (e0 : ε) (f : υ → Except ε α) (g : α → υ)
    (hfg : ∀ a, f (g a) = Except.ok a) (ub : υ) (er : ε)
    (hub : f ub = Except.error er) (ins : γ → α → γ) (as : List α) (n : Nat) :
    ∀ (i : Nat) (c : γ) (rest log : List (Ev υ)),
      decodeSeqElts (streamDec e0) (atomDec e0 f) ins i (List.length as + n + 1) c
          (seqTokens g as i ++ Ev.seqElt (i + List.length as) :: Ev.atom ub :: rest, log)
        = (Except.error er,
           (rest, log ++ (List.range' i (List.length as + 1)).map Ev.seqElt)) := by
  induction as with
  | nil =>
    intro i c rest log
    simp [decodeSeqElts, seqTokens, streamDec_seqElt, atomDec_atom, hub, List.range']
  | cons a as ih =>
    intro i c rest log
    have h1 : List.length as + 1 + n = List.length as + n + 1 := by omega
    have h2 : i + (List.length as + 1) = (i + 1) + List.length as := by omega
    simp [decodeSeqElts, seqTokens, streamDec_seqElt, atomDec_atom, hfg, List.range',
      h1, h2, ih]

/-- If the key of the pair at position `ps.length` of the stream fails to
decode (after the pairs of `ps` decode fine), the map decode loop issues
no reads past that key and returns that failure unchanged. -/
theorem decodeMapElts_keyFail (e0 : ε) (fK : υ → Except ε κ) (gK : κ → υ)
    (fV : υ → Except ε ν) (gV : ν → υ)
    (hK : ∀ k, fK (gK k) = Except.ok k) (hV : ∀ v, fV (gV v) = Except.ok v)
    (ub : υ) (er : ε) (hub : fK ub = Except.error er)
    (ins : γ → κ → ν → γ) (ps : List (κ × ν)) (n : Nat) :
    ∀ (i : Nat) (c : γ) (rest log : List (Ev υ)),
      decodeMapElts (streamDec e0) (atomDec e0 fK) (atomDec e0 fV) ins i
          (List.length ps + n + 1) c
          (mapTokens gK gV ps i ++ Ev.mapKey (i + List.length ps) :: Ev.atom ub :: rest, log)
        = (Except.error er,
           (rest, log ++ mapReadLog (List.length ps) i
              ++ [Ev.mapKey (i + List.length ps)])) := by
  induction ps with
  | nil =>
    intro i c rest log
    simp [decodeMapElts, mapTokens, mapReadLog, streamDec_mapKey, atomDec_atom, hub]
  | cons p ps ih =>
    intro i c rest log
    have h1 : List.length ps + 1 + n = List.length ps + n + 1 := by omega
    have h2 : i + (List.length ps + 1) = (i + 1) + List.length ps := by omega
    simp [decodeMapElts, mapTokens, mapReadLog, streamDec_mapKey, streamDec_mapVal,
      atomDec_atom, hK, hV, h1, h2, ih]

/-- If the value of the pair at position `ps.length` of the stream fails
to decode (its key decoded fine), the map decode loop stops right after
that value read and returns the failure unchanged. -/
theorem decodeMapElts_valFail (e0 : ε) (fK : υ → Except ε κ) (gK : κ → υ)
    (fV : υ → Except ε ν) (gV : ν → υ)
    (hK : ∀ k, fK (gK k) = Except.ok k) (hV : ∀ v, fV (gV v) = Except.ok v)
    (kb : κ) (ub : υ) (er : ε) (hub : fV ub = Except.error er)
    (ins : γ → κ → ν → γ) (ps : List (κ × ν)) (n : Nat) :
    ∀ (i : Nat) (c : γ) (rest log : List (Ev υ)),
      decodeMapElts (streamDec e0) (atomDec e0 fK) (atomDec e0 fV) ins i
          (List.length ps + n + 1) c
          (mapTokens gK gV ps i
             ++ Ev.mapKey (i + List.length ps) :: Ev.atom (gK kb)
             :: Ev.mapVal (i + List.length ps) :: Ev.atom ub :: rest, log)
        = (Except.error er,
           (rest, log ++ mapReadLog (List.length ps) i
              ++ [Ev.mapKey (i + List.length ps), Ev.mapVal (i + List.length ps)])) := by
  induction ps with
  | nil =>
    intro i c rest log
    simp [decodeMapElts, mapTokens, mapReadLog, streamDec_mapKey, streamDec_mapVal,
      atomDec_atom, hK, hub]
  | cons p ps ih =>
    intro i c rest log
    have h1 : List.length ps + 1 + n = List.length ps + n + 1 := by omega
    have h2 : i + (List.length ps + 1) = (i + 1) + List.length ps := by omega
    simp [decodeMapElts, mapTokens, mapReadLog, streamDec_mapKey, streamDec_mapVal,
      atomDec_atom, hK, hV, h1, h2, ih]

/-! ## Properties of the container insertion routines -/

/-- Inserting a key greater than every key present appends at the end. -/
theorem insertSorted_allLt [LinearOrder κ] (l : List (κ × ν)) (k : κ) (v : ν)
    (h : ∀ p ∈ l, p.1 < k) : insertSorted l k v = l ++ [(k, v)] := by
  induction l with
  | nil => simp [insertSorted]
  | cons p rest ih =>
    have hp : p.1 < k := h p (by simp)
    have h1 : ¬ k < p.1 := lt_asymm hp
    have h2 : ¬ k = p.1 := ne_of_gt hp
    have ih2 := ih (fun q hq => h q (List.mem_cons_of_mem _ hq))
    simp [insertSorted, h1, h2, ih2]

/-- Lookup after a sorted insert: the inserted key now maps to the new
value, other keys are untouched. -/
theorem insertSorted_get [LinearOrder κ] [DecidableEq κ] (l : List (κ × ν)) (k : κ) (v : ν) (k' : κ) :
    assocGet (insertSorted l k v) k' = if k' = k then some v else assocGet l k' := by
  induction l with
  | nil => simp [insertSorted, assocGet]
  | cons p rest ih =>
    by_cases h1 : k < p.1
    · simp [insertSorted, assocGet, h1]
    · by_cases h2 : k = p.1
      · by_cases hk : k' = k
        · simp [insertSorted, assocGet, h1, h2, hk]
        · have hk' : ¬ k' = p.1 := by rw [← h2]; exact hk
          simp [insertSorted, assocGet, h1, h2, hk, hk']
      · by_cases hk' : k' = p.1
        · have hkk : ¬ k' = k := by
            intro hh
            exact h2 (by rw [← hh, hk'])
          have hpk : ¬ p.1 = k := fun hh => h2 hh.symm
          simp [insertSorted, assocGet, h1, h2, hk', hkk, hpk]
        · simp [insertSorted, assocGet, h1, h2, hk', ih]

/-- A sorted insert grows the entry list by at most one. -/
theorem insertSorted_len_le [LinearOrder κ] (l : List (κ × ν)) (k : κ) (v : ν) :
    (insertSorted l k v).length ≤ l.length + 1 := by
  induction l with
  | nil => simp [insertSorted]
  | cons p rest ih =>
    by_cases h1 : k < p.1
    · simp [insertSorted, h1]
    · by_cases h2 : k = p.1
      · simp [insertSorted, h1, h2]
      · simp [insertSorted, h1, h2]
        omega

/-- A sorted insert of an absent key grows the entry list by exactly one. -/
theorem insertSorted_len_fresh [LinearOrder κ] (l : List (κ × ν)) (k : κ) (v : ν)
    (h : k ∉ l.map Prod.fst) : (insertSorted l k v).length = l.length + 1 := by
  induction l with
  | nil => simp [insertSorted]
  | cons p rest ih =>
    simp only [List.map_cons, List.mem_cons, not_or] at h
    by_cases h1 : k < p.1
    · simp [insertSorted, h1]
    · simp [insertSorted, h1, h.1, ih h.2]

/-- Keys present after a sorted insert were present before, or are the
inserted key. -/
theorem insertSorted_keys_sub [LinearOrder κ] (l : List (κ × ν)) (k : κ) (v : ν) (x : κ)
    (hx : x ∈ (insertSorted l k v).map Prod.fst) : x = k ∨ x ∈ l.map Prod.fst := by
  induction l with
  | nil =>
    simp [insertSorted] at hx
    simp [hx]
  | cons p rest ih =>
    by_cases h1 : k < p.1
    · simp only [insertSorted, if_pos h1, List.map_cons, List.mem_cons] at hx
      simp only [List.map_cons, List.mem_cons]
      tauto
    · by_cases h2 : k = p.1
      · simp only [insertSorted, if_neg h1, if_pos h2, List.map_cons, List.mem_cons] at hx
        simp only [List.map_cons, List.mem_cons]
        tauto
      · simp only [insertSorted, if_neg h1, if_neg h2, List.map_cons, List.mem_cons] at hx
        simp only [List.map_cons, List.mem_cons]
        rcases hx with hx | hx
        · tauto
        · rcases ih hx with h | h
          · exact Or.inl h
          · exact Or.inr (Or.inr h)

/-- Inserting an element greater than every element present appends. -/
theorem insertOrd_allLt [LinearOrder α] (l : List α) (a : α)
    (h : ∀ b ∈ l, b < a) : insertOrd l a = l ++ [a] := by
  induction l with
  | nil => simp [insertOrd]
  | cons b rest ih =>
    have hb : b < a := h b (by simp)
    have h1 : ¬ a < b := lt_asymm hb
    have h2 : ¬ a = b := ne_of_gt hb
    have ih2 := ih (fun q hq => h q (List.mem_cons_of_mem _ hq))
    simp [insertOrd, h1, h2, ih2]

/-- Membership after a sorted set insert. -/
theorem insertOrd_mem [LinearOrder α] (l : List α) (a x : α) :
    x ∈ insertOrd l a ↔ x = a ∨ x ∈ l := by
  induction l with
  | nil => simp [insertOrd]
  | cons b rest ih =>
    by_cases h1 : a < b
    · simp [insertOrd, h1]
    · by_cases h2 : a = b
      · subst h2
        rw [show insertOrd (a :: rest) a = a :: rest by simp [insertOrd, h1]]
        simp only [List.mem_cons]
        tauto
      · simp only [insertOrd, if_neg h1, if_neg h2, List.mem_cons, ih]
        tauto

/-- A sorted set insert keeps the element list strictly sorted. -/
theorem insertOrd_pairwise [LinearOrder α] (l : List α) (a : α)
    (h : l.Pairwise (fun x y => x < y)) :
    (insertOrd l a).Pairwise (fun x y => x < y) := by
  induction l with
  | nil => simp [insertOrd]
  | cons b rest ih =>
    rcases List.pairwise_cons.mp h with ⟨hb, hrest⟩
    by_cases h1 : a < b
    · rw [show insertOrd (b :: rest) a = a :: b :: rest by simp [insertOrd, h1]]
      refine List.pairwise_cons.mpr ⟨?_, h⟩
      intro x hx
      rcases List.mem_cons.mp hx with hx | hx
      · rw [hx]; exact h1
      · exact lt_trans h1 (hb x hx)
    · by_cases h2 : a = b
      · rw [show insertOrd (b :: rest) a = b :: rest by simp [insertOrd, h1, h2]]
        exact h
      · have hba : b < a := by
          rcases lt_trichotomy a b with hq | hq | hq
          · exact absurd hq h1
          · exact absurd hq h2
          · exact hq
        rw [show insertOrd (b :: rest) a = b :: insertOrd rest a by simp [insertOrd, h1, h2]]
        refine List.pairwise_cons.mpr ⟨?_, ih hrest⟩
        intro x hx
        rcases (insertOrd_mem rest a x).mp hx with hx | hx
        · rw [hx]; exact hba
        · exact hb x hx

/-- A sorted set insert grows the element list by at most one. -/
theorem insertOrd_len_le [LinearOrder α] (l : List α) (a : α) :
    (insertOrd l a).length ≤ l.length + 1 := by
  induction l with
  | nil => simp [insertOrd]
  | cons b rest ih =>
    by_cases h1 : a < b
    · simp [insertOrd, h1]
    · by_cases h2 : a = b
      · simp [insertOrd, h1, h2]
      · simp [insertOrd, h1, h2]
        omega

/-- A sorted set insert of an absent element grows the list by one. -/
theorem insertOrd_len_fresh [LinearOrder α] (l : List α) (a : α)
    (h : a ∉ l) : (insertOrd l a).length = l.length + 1 := by
  induction l with
  | nil => simp [insertOrd]
  | cons b rest ih =>
    simp only [List.mem_cons, not_or] at h
    by_cases h1 : a < b
    · simp [insertOrd, h1]
    · simp [insertOrd, h1, h.1, ih h.2]

/-- Updating an absent key appends the new entry at the tail. -/
theorem assocUpd_fresh [DecidableEq κ] (l : List (κ × ν)) (k : κ) (v : ν)
    (h : k ∉ l.map Prod.fst) : assocUpd l k v = l ++ [(k, v)] := by
  induction l with
  | nil => simp [assocUpd]
  | cons p rest ih =>
    simp only [List.map_cons, List.mem_cons, not_or] at h
    simp [assocUpd, h.1, ih h.2]

/-- Lookup after an association update: the updated key now maps to the
new value, other keys are untouched. -/
theorem assocUpd_get [DecidableEq κ] (l : List (κ × ν)) (k : κ) (v : ν) (k' : κ) :
    assocGet (assocUpd l k v) k' = if k' = k then some v else assocGet l k' := by
  induction l with
  | nil => simp [assocUpd, assocGet]
  | cons p rest ih =>
    by_cases h1 : k = p.1
    · by_cases hk : k' = k
      · simp [assocUpd, assocGet, h1, hk]
      · have hk' : ¬ k' = p.1 := by rw [← h1]; exact hk
        simp [assocUpd, assocGet, h1, hk, hk']
    · by_cases hk' : k' = p.1
      · have hkk : ¬ k' = k := by
          intro hh
          exact h1 (by rw [← hh, hk'])
        have hpk : ¬ p.1 = k := fun hh => h1 hh.symm
        simp [assocUpd, assocGet, h1, hk', hkk, hpk]
      · simp [assocUpd, assocGet, h1, hk', ih]

/-- An association update grows the entry list by at most one. -/
theorem assocUpd_len_le [DecidableEq κ] (l : List (κ × ν)) (k : κ) (v : ν) :
    (assocUpd l k v).length ≤ l.length + 1 := by
  induction l with
  | nil => simp [assocUpd]
  | cons p rest ih =>
    by_cases h1 : k = p.1
    · simp [assocUpd, h1]
    · simp [assocUpd, h1]
      omega

/-- An association update of an absent key grows the list by one. -/
theorem assocUpd_len_fresh [DecidableEq κ] (l : List (κ × ν)) (k : κ) (v : ν)
    (h : k ∉ l.map Prod.fst) : (assocUpd l k v).length = l.length + 1 := by
  rw [assocUpd_fresh l k v h]
  simp

/-- Keys present after an association update were present before, or are
the updated key. -/
theorem assocUpd_keys_sub [DecidableEq κ] (l : List (κ × ν)) (k : κ) (v : ν) (x : κ)
    (hx : x ∈ (assocUpd l k v).map Prod.fst) : x = k ∨ x ∈ l.map Prod.fst := by
  induction l with
  | nil =>
    simp [assocUpd] at hx
    simp [hx]
  | cons p rest ih =>
    by_cases h1 : k = p.1
    · simp only [assocUpd, if_pos h1, List.map_cons, List.mem_cons] at hx
      simp only [List.map_cons, List.mem_cons]
      tauto
    · simp only [assocUpd, if_neg h1, List.map_cons, List.mem_cons] at hx
      simp only [List.map_cons, List.mem_cons]
      rcases hx with hx | hx
      · tauto
      · rcases ih hx with h | h
        · exact Or.inl h
        · exact Or.inr (Or.inr h)

/-- Updating an absent element appends it at the tail. -/
theorem setUpd_fresh [DecidableEq α] (l : List α) (a : α)
    (h : a ∉ l) : setUpd l a = l ++ [a] := by
  induction l with
  | nil => simp [setUpd]
  | cons b rest ih =>
    simp only [List.mem_cons, not_or] at h
    simp [setUpd, h.1, ih h.2]

/-- Membership after a hash-set insert. -/
theorem setUpd_mem [DecidableEq α] (l : List α) (a x : α) :
    x ∈ setUpd l a ↔ x = a ∨ x ∈ l := by
  induction l with
  | nil => simp [setUpd]
  | cons b rest ih =>
    by_cases h1 : a = b
    · subst h1
      rw [show setUpd (a :: rest) a = a :: rest by simp [setUpd]]
      simp only [List.mem_cons]
      tauto
    · simp only [setUpd, if_neg h1, List.mem_cons, ih]
      tauto

/-- A hash-set insert grows the element list by at most one. -/
theorem setUpd_len_le [DecidableEq α] (l : List α) (a : α) :
    (setUpd l a).length ≤ l.length + 1 := by
  induction l with
  | nil => simp [setUpd]
  | cons b rest ih =>
    by_cases h1 : a = b
    · simp [setUpd, h1]
    · simp [setUpd, h1]
      omega

/-- A hash-set insert of an absent element grows the list by one. -/
theorem setUpd_len_fresh [DecidableEq α] (l : List α) (a : α)
    (h : a ∉ l) : (setUpd l a).length = l.length + 1 := by
  rw [setUpd_fresh l a h]
  simp

/-- A hash-set insert keeps the element list duplicate-free. -/
theorem setUpd_nodup [DecidableEq α] (l : List α) (a : α)
    (h : l.Nodup) : (setUpd l a).Nodup := by
  induction l with
  | nil => simp [setUpd]
  | cons b rest ih =>
    rcases List.nodup_cons.mp h with ⟨hb, hrest⟩
    by_cases h1 : a = b
    · subst h1
      rw [show setUpd (a :: rest) a = a :: rest by simp [setUpd]]
      exact h
    · rw [show setUpd (b :: rest) a = b :: setUpd rest a by simp [setUpd, h1]]
      refine List.nodup_cons.mpr ⟨?_, ih hrest⟩
      intro hmem
      rcases (setUpd_mem rest a b).mp hmem with hx | hx
      · exact h1 hx.symm
      · exact hb hx

/-! ## Folding the insertions, as the decode loops do -/

/-- Folding `DList::push_back` appends the decoded elements in order. -/
theorem dlist_foldl_push_back (as : List α) (c : DList α) :
    List.foldl DList.push_back c as = c ++ as := by
  have h : DList.push_back = fun (l : List α) a => l ++ [a] := rfl
  rw [h, foldl_append_eq]

/-- Folding `RingBuf::push_back` appends the decoded elements in order. -/
theorem ringBuf_foldl_push_back (as : List α) (c : RingBuf α) :
    List.foldl RingBuf.push_back c as = c ++ as := by
  have h : RingBuf.push_back = fun (l : List α) a => l ++ [a] := rfl
  rw [h, foldl_append_eq]

/-- Re-inserting a sorted entry list into a sorted map rebuilds it
verbatim. -/
theorem btreeMap_foldl_rebuild [LinearOrder κ] (l : List (κ × ν)) :
    ∀ pre : BTreeMap κ ν, (pre ++ l).Pairwise (fun p q => p.1 < q.1) →
      List.foldl (fun c p => BTreeMap.insert c p.1 p.2) pre l = pre ++ l := by
  induction l with
  | nil => intro pre _; simp
  | cons p l ih =>
    intro pre h
    have hlt : ∀ q ∈ pre, q.1 < p.1 := by
      intro q hq
      exact (List.pairwise_append.mp h).2.2 q hq p (by simp)
    have hins : BTreeMap.insert pre p.1 p.2 = pre ++ [p] := by
      simp only [BTreeMap.insert]
      rw [insertSorted_allLt pre p.1 p.2 hlt]
    have h' : ((pre ++ [p]) ++ l).Pairwise (fun p q => p.1 < q.1) := by
      simpa using h
    simp only [List.foldl_cons, hins, ih (pre ++ [p]) h']
    simp

/-- Re-inserting a sorted element list into a sorted set rebuilds it
verbatim. -/
theorem btreeSet_foldl_rebuild [LinearOrder α] (l : List α) :
    ∀ pre : BTreeSet α, (pre ++ l).Pairwise (fun a b => a < b) →
      List.foldl BTreeSet.insert pre l = pre ++ l := by
  induction l with
  | nil => intro pre _; simp
  | cons a l ih =>
    intro pre h
    have hlt : ∀ b ∈ pre, b < a := by
      intro b hb
      exact (List.pairwise_append.mp h).2.2 b hb a (by simp)
    have hins : BTreeSet.insert pre a = pre ++ [a] := by
      simp only [BTreeSet.insert]
      exact insertOrd_allLt pre a hlt
    have h' : ((pre ++ [a]) ++ l).Pairwise (fun a b => a < b) := by
      simpa using h
    simp only [List.foldl_cons, hins, ih (pre ++ [a]) h']
    simp

/-- Folding sorted-set insertion preserves sortedness. -/
theorem btreeSet_foldl_pairwise [LinearOrder α] (as : List α) :
    ∀ s : BTreeSet α, BTreeSet.WF s → BTreeSet.WF (List.foldl BTreeSet.insert s as) := by
  induction as with
  | nil => intro s h; exact h
  | cons a as ih =>
    intro s h
    exact ih (BTreeSet.insert s a) (insertOrd_pairwise s a h)

/-- Re-inserting an entry list with pairwise-distinct keys into a hash
map rebuilds the entries verbatim; the capacity becomes the larger of the
starting capacity and the final entry count. -/
theorem hashMap_foldl_rebuild [DecidableEq κ] (l : List (κ × ν)) :
    ∀ m : HashMap κ ν, ((m.entries ++ l).map Prod.fst).Nodup →
      m.entries.length ≤ m.cap →
      List.foldl (fun c p => HashMap.insert c p.1 p.2) m l
        = { entries := m.entries ++ l
            cap := Nat.max m.cap (m.entries.length + l.length) } := by
  induction l with
  | nil =>
    intro m hnd hc
    simp [Nat.max_eq_left hc]
  | cons p l ih =>
    intro m hnd hc
    have hfresh : p.1 ∉ m.entries.map Prod.fst := by
      intro hmem
      have h1 : ((m.entries.map Prod.fst) ++ (p.1 :: l.map Prod.fst)).Nodup := by
        simpa using hnd
      exact (List.nodup_append.mp h1).2.2 hmem (by simp)
    have hupd : assocUpd m.entries p.1 p.2 = m.entries ++ [p] :=
      assocUpd_fresh m.entries p.1 p.2 hfresh
    have hins : HashMap.insert m p.1 p.2
        = { entries := m.entries ++ [p], cap := Nat.max m.cap (m.entries.length + 1) } := by
      simp [HashMap.insert, hupd]
    have hih := ih { entries := m.entries ++ [p], cap := Nat.max m.cap (m.entries.length + 1) }
      (by simpa using hnd) (by simp)
    simp only [List.foldl_cons, hins, hih]
    simp only [List.length_append, List.length_singleton, List.length_cons,
      List.length_nil, List.append_assoc, List.singleton_append, HashMap.mk.injEq, true_and]
    simp only [Nat.max_def]
    split_ifs <;> omega

/-- Re-inserting a duplicate-free element list into a hash set rebuilds
the elements verbatim; the capacity becomes the larger of the starting
capacity and the final element count. -/
theorem hashSet_foldl_rebuild [DecidableEq α] (l : List α) :
    ∀ s : HashSet α, (s.elems ++ l).Nodup →
      s.elems.length ≤ s.cap →
      List.foldl HashSet.insert s l
        = { elems := s.elems ++ l
            cap := Nat.max s.cap (s.elems.length + l.length) } := by
  induction l with
  | nil =>
    intro s hnd hc
    simp [Nat.max_eq_left hc]
  | cons a l ih =>
    intro s hnd hc
    have hfresh : a ∉ s.elems := by
      intro hmem
      exact (List.nodup_append.mp (by simpa using hnd)).2.2 hmem (by simp)
    have hupd : setUpd s.elems a = s.elems ++ [a] := setUpd_fresh s.elems a hfresh
    have hins : HashSet.insert s a
        = { elems := s.elems ++ [a], cap := Nat.max s.cap (s.elems.length + 1) } := by
      simp [HashSet.insert, hupd]
    have hih := ih { elems := s.elems ++ [a], cap := Nat.max s.cap (s.elems.length + 1) }
      (by simpa using hnd) (by simp)
    simp only [List.foldl_cons, hins, hih]
    simp only [List.length_append, List.length_singleton, List.length_cons,
      List.length_nil, List.append_assoc, List.singleton_append, HashSet.mk.injEq, true_and]
    simp only [Nat.max_def]
    split_ifs <;> omega

/-- Generic bound: folding a pair insertion that grows a size measure by
at most one keeps the final size within the number of pairs inserted. -/
theorem foldl_pair_size_le (size : γ → Nat) (ins : γ → κ → ν → γ)
    (hle : ∀ c k v, size (ins c k v) ≤ size c + 1) (ps : List (κ × ν)) :
    ∀ c : γ, size (List.foldl (fun c p => ins c p.1 p.2) c ps) ≤ size c + ps.length := by
  induction ps with
  | nil => intro c; simp
  | cons p ps ih =>
    intro c
    have h1 := ih (ins c p.1 p.2)
    have h2 := hle c p.1 p.2
    simp only [List.foldl_cons, List.length_cons]
    omega

/-- Generic exactness: when the inserted keys are pairwise distinct and
all absent from the accumulator, each insertion grows the size by one. -/
theorem foldl_pair_size_nodup (size : γ → Nat) (keysOf : γ → List κ)
    (ins : γ → κ → ν → γ)
    (hfresh : ∀ c k v, k ∉ keysOf c → size (ins c k v) = size c + 1)
    (hsub : ∀ c k v x, x ∈ keysOf (ins c k v) → x = k ∨ x ∈ keysOf c)
    (ps : List (κ × ν)) :
    ∀ c : γ, (ps.map Prod.fst).Nodup → (∀ x ∈ ps.map Prod.fst, x ∉ keysOf c) →
      size (List.foldl (fun c p => ins c p.1 p.2) c ps) = size c + ps.length := by
  induction ps with
  | nil => intro c _ _; simp
  | cons p ps ih =>
    intro c hnd hfr
    simp only [List.map_cons] at hnd
    rcases List.nodup_cons.mp hnd with ⟨hp, hnd2⟩
    have hfr1 : p.1 ∉ keysOf c := hfr p.1 (by simp)
    have hstep := hfresh c p.1 p.2 hfr1
    have hfr2 : ∀ x ∈ ps.map Prod.fst, x ∉ keysOf (ins c p.1 p.2) := by
      intro x hx hmem
      rcases hsub c p.1 p.2 x hmem with h | h
      · exact hp (h ▸ hx)
      · exact hfr x (by simp [hx]) h
    have h1 := ih (ins c p.1 p.2) hnd2 hfr2
    simp only [List.foldl_cons, List.length_cons]
    omega

/-- Generic bound for element insertions, set flavour. -/
theorem foldl_elem_size_le (size : γ → Nat) (ins : γ → α → γ)
    (hle : ∀ c a, size (ins c a) ≤ size c + 1) (as : List α) :
    ∀ c : γ, size (List.foldl ins c as) ≤ size c + as.length := by
  induction as with
  | nil => intro c; simp
  | cons a as ih =>
    intro c
    have h1 := ih (ins c a)
    have h2 := hle c a
    simp only [List.foldl_cons, List.length_cons]
    omega

/-- Generic exactness for element insertions, set flavour. -/
theorem foldl_elem_size_nodup (size : γ → Nat) (elemsOf : γ → List α)
    (ins : γ → α → γ)
    (hfresh : ∀ c a, a ∉ elemsOf c → size (ins c a) = size c + 1)
    (hsub : ∀ c a x, x ∈ elemsOf (ins c a) → x = a ∨ x ∈ elemsOf c)
    (as : List α) :
    ∀ c : γ, as.Nodup → (∀ x ∈ as, x ∉ elemsOf c) →
      size (List.foldl ins c as) = size c + as.length := by
  induction as with
  | nil => intro c _ _; simp
  | cons a as ih =>
    intro c hnd hfr
    rcases List.nodup_cons.mp hnd with ⟨ha, hnd2⟩
    have hfr1 : a ∉ elemsOf c := hfr a (by simp)
    have hstep := hfresh c a hfr1
    have hfr2 : ∀ x ∈ as, x ∉ elemsOf (ins c a) := by
      intro x hx hmem
      rcases hsub c a x hmem with h | h
      · exact ha (h ▸ hx)
      · exact hfr x (by simp [hx]) h
    have h1 := ih (ins c a) hnd2 hfr2
    simp only [List.foldl_cons, List.length_cons]
    omega

/-- Generic last-wins lookup: folding an insertion whose lookup shadows
the inserted key yields, for each key, the value of its last occurrence
in the pair list (falling back to the accumulator). -/
theorem foldl_get_last [DecidableEq κ] (get : γ → κ → Option ν) (ins : γ → κ → ν → γ)
    (hstep : ∀ c k v k', get (ins c k v) k' = if k' = k then some v else get c k')
    (ps : List (κ × ν)) :
    ∀ (c : γ) (k : κ),
      get (List.foldl (fun c p => ins c p.1 p.2) c ps) k
        = match lastGet ps k with
          | some w => some w
          | none => get c k := by
  induction ps with
  | nil => intro c k; simp [lastGet]
  | cons p ps ih =>
    intro c k
    simp only [List.foldl_cons, ih]
    cases hl : lastGet ps k with
    | some w => simp [lastGet, hl]
    | none =>
      by_cases hk : k = p.1
      · subst hk
        simp [lastGet, hl, hstep]
      · simp [lastGet, hl, hstep, hk]

/-- Generic membership after folding a set insertion. -/
theorem foldl_elem_mem (elemsOf : γ → List α) (ins : γ → α → γ)
    (hmem : ∀ c b x, x ∈ elemsOf (ins c b) ↔ x = b ∨ x ∈ elemsOf c)
    (as : List α) :
    ∀ (c : γ) (x : α), x ∈ elemsOf (List.foldl ins c as) ↔ x ∈ as ∨ x ∈ elemsOf c := by
  induction as with
  | nil => intro c x; simp
  | cons a as ih =>
    intro c x
    simp only [List.foldl_cons, List.mem_cons, ih, hmem]
    tauto

/-- The hash-map fold grows the entry list by at most the number of pairs
inserted, whatever the keys are. -/
theorem hashMap_foldl_len_le [DecidableEq κ] (ps : List (κ × ν)) :
    ∀ m : HashMap κ ν,
      (List.foldl (fun c p => HashMap.insert c p.1 p.2) m ps).entries.length
        ≤ m.entries.length + ps.length := by
  induction ps with
  | nil => intro m; simp
  | cons p ps ih =>
    intro m
    have h1 := ih (HashMap.insert m p.1 p.2)
    have h2 : (HashMap.insert m p.1 p.2).entries.length ≤ m.entries.length + 1 := by
      simpa [HashMap.insert] using assocUpd_len_le m.entries p.1 p.2
    simp only [List.foldl_cons, List.length_cons]
    omega

/-- When the announced capacity covers every insertion, the hash-map fold
never grows the capacity: the destination stays exactly as pre-sized. -/
theorem hashMap_foldl_cap [DecidableEq κ] (ps : List (κ × ν)) :
    ∀ m : HashMap κ ν, m.entries.length + ps.length ≤ m.cap →
      (List.foldl (fun c p => HashMap.insert c p.1 p.2) m ps).cap = m.cap := by
  induction ps with
  | nil => intro m _; simp
  | cons p ps ih =>
    intro m h
    have hlen : (assocUpd m.entries p.1 p.2).length ≤ m.entries.length + 1 :=
      assocUpd_len_le m.entries p.1 p.2
    simp only [List.length_cons] at h
    have hcap : (HashMap.insert m p.1 p.2).cap = m.cap := by
      simp only [HashMap.insert, Nat.max_def]
      split_ifs <;> omega
    have hlen2 : (HashMap.insert m p.1 p.2).entries.length ≤ m.entries.length + 1 := by
      simpa [HashMap.insert] using hlen
    have := ih (HashMap.insert m p.1 p.2) (by rw [hcap]; omega)
    simp only [List.foldl_cons]
    rw [this, hcap]

/-- The entry list a hash-map fold produces does not depend on the
starting capacity. -/
theorem hashMap_foldl_entries_congr [DecidableEq κ] (ps : List (κ × ν)) :
    ∀ m1 m2 : HashMap κ ν, m1.entries = m2.entries →
      (List.foldl (fun c p => HashMap.insert c p.1 p.2) m1 ps).entries
        = (List.foldl (fun c p => HashMap.insert c p.1 p.2) m2 ps).entries := by
  induction ps with
  | nil => intro m1 m2 h; simpa using h
  | cons p ps ih =>
    intro m1 m2 h
    simp only [List.foldl_cons]
    exact ih _ _ (by simp [HashMap.insert, h])

/-- The hash-set fold grows the element list by at most the number of
elements inserted. -/
theorem hashSet_foldl_len_le [DecidableEq α] (as : List α) :
    ∀ s : HashSet α,
      (List.foldl HashSet.insert s as).elems.length ≤ s.elems.length + as.length := by
  induction as with
  | nil => intro s; simp
  | cons a as ih =>
    intro s
    have h1 := ih (HashSet.insert s a)
    have h2 : (HashSet.insert s a).elems.length ≤ s.elems.length + 1 := by
      simpa [HashSet.insert] using setUpd_len_le s.elems a
    simp only [List.foldl_cons, List.length_cons]
    omega

/-- When the announced capacity covers every insertion, the hash-set fold
never grows the capacity. -/
theorem hashSet_foldl_cap [DecidableEq α] (as : List α) :
    ∀ s : HashSet α, s.elems.length + as.length ≤ s.cap →
      (List.foldl HashSet.insert s as).cap = s.cap := by
  induction as with
  | nil => intro s _; simp
  | cons a as ih =>
    intro s h
    have hlen : (setUpd s.elems a).length ≤ s.elems.length + 1 :=
      setUpd_len_le s.elems a
    simp only [List.length_cons] at h
    have hcap : (HashSet.insert s a).cap = s.cap := by
      simp only [HashSet.insert, Nat.max_def]
      split_ifs <;> omega
    have hlen2 : (HashSet.insert s a).elems.length ≤ s.elems.length + 1 := by
      simpa [HashSet.insert] using hlen
    have := ih (HashSet.insert s a) (by rw [hcap]; omega)
    simp only [List.foldl_cons]
    rw [this, hcap]

/-- The element list a hash-set fold produces does not depend on the
starting capacity. -/
theorem hashSet_foldl_elems_congr [DecidableEq α] (as : List α) :
    ∀ s1 s2 : HashSet α, s1.elems = s2.elems →
      (List.foldl HashSet.insert s1 as).elems = (List.foldl HashSet.insert s2 as).elems := by
  induction as with
  | nil => intro s1 s2 h; simpa using h
  | cons a as ih =>
    intro s1 s2 h
    simp only [List.foldl_cons]
    exact ih _ _ (by simp [HashSet.insert, h])

/-- Folding hash-set insertion keeps the element list duplicate-free. -/
theorem hashSet_foldl_nodup [DecidableEq α] (as : List α) :
    ∀ s : HashSet α, s.elems.Nodup → (List.foldl HashSet.insert s as).elems.Nodup := by
  induction as with
  | nil => intro s h; exact h
  | cons a as ih =>
    intro s h
    exact ih (HashSet.insert s a) (by simpa [HashSet.insert] using setUpd_nodup s.elems a h)

/-- Round-trip corollary: sequence decode loop on a stream holding the
element tokens and nothing else. -/
theorem decodeSeqElts_rt_nil (e0 : ε) (f : υ → Except ε α) (g : α → υ)
    (hfg : ∀ a, f (g a) = Except.ok a) (ins : γ → α → γ) (as : List α)
    (i : Nat) (c : γ) (log : List (Ev υ)) :
    decodeSeqElts (streamDec e0) (atomDec e0 f) ins i (List.length as) c
        (seqTokens g as i, log)
      = (Except.ok (List.foldl ins c as),
         ([], log ++ (List.range' i (List.length as)).map Ev.seqElt)) := by
  have h := decodeSeqElts_rt e0 f g hfg ins as i c [] log
  simpa using h

/-- Round-trip corollary: map decode loop on a stream holding the pair
tokens and nothing else. -/
theorem decodeMapElts_rt_nil (e0 : ε) (fK : υ → Except ε κ) (gK : κ → υ)
    (fV : υ → Except ε ν) (gV : ν → υ)
    (hK : ∀ k, fK (gK k) = Except.ok k) (hV : ∀ v, fV (gV v) = Except.ok v)
    (ins : γ → κ → ν → γ) (ps : List (κ × ν)) (i : Nat) (c : γ) (log : List (Ev υ)) :
    decodeMapElts (streamDec e0) (atomDec e0 fK) (atomDec e0 fV) ins i
        (List.length ps) c (mapTokens gK gV ps i, log)
      = (Except.ok (List.foldl (fun c p => ins c p.1 p.2) c ps),
         ([], log ++ mapReadLog (List.length ps) i)) := by
  have h := decodeMapElts_rt e0 fK gK fV gV hK hV ins ps i c [] log
  simpa using h

/-! ## The claims -/

/-- C1: for every supported container kind, decoding the encoding of a
container over the faithful trace/stream backend succeeds and returns the
container: verbatim (iteration-order equality) for the sequence kinds
DList and RingBuf, structurally (which subsumes membership-and-mapping
equality) for the sorted kinds BTreeMap, BTreeSet, VecMap, and with the
same entries/elements (membership-and-mapping equality; the capacity
field becomes the decoder-reported length) for the hashed kinds HashMap
and HashSet. -/
theorem claim_C1_round_trip {ε κ ν α : Type} [LinearOrder κ] [LinearOrder α]
    [DecidableEq κ] [DecidableEq α] (e0 : ε) :
    (∀ l : DList α,
      (DList.decode (streamDec e0) (atomDec e0 Except.ok)
          ((DList.encode (traceEnc : EncoderOps (List (Ev α)) ε) (atomEnc id) l []).2,
            [])).1
        = Except.ok l)
    ∧ (∀ q : RingBuf α,
      (RingBuf.decode (streamDec e0) (atomDec e0 Except.ok)
          ((RingBuf.encode (traceEnc : EncoderOps (List (Ev α)) ε) (atomEnc id) q []).2,
            [])).1
        = Except.ok q)
    ∧ (∀ m : BTreeMap κ ν, BTreeMap.WF m →
      (BTreeMap.decode (streamDec e0) (atomDec e0 (inlDec e0)) (atomDec e0 (inrDec e0))
          ((BTreeMap.encode (traceEnc : EncoderOps (List (Ev (κ ⊕ ν))) ε)
              (atomEnc Sum.inl) (atomEnc Sum.inr) m []).2, [])).1
        = Except.ok m)
    ∧ (∀ s : BTreeSet α, BTreeSet.WF s →
      (BTreeSet.decode (streamDec e0) (atomDec e0 Except.ok)
          ((BTreeSet.encode (traceEnc : EncoderOps (List (Ev α)) ε) (atomEnc id) s []).2,
            [])).1
        = Except.ok s)
    ∧ (∀ m : HashMap κ ν, HashMap.WF m →
      (HashMap.decode (streamDec e0) (atomDec e0 (inlDec e0)) (atomDec e0 (inrDec e0))
          ((HashMap.encode (traceEnc : EncoderOps (List (Ev (κ ⊕ ν))) ε)
              (atomEnc Sum.inl) (atomEnc Sum.inr) m []).2, [])).1
        = Except.ok { entries := m.entries, cap := m.entries.length })
    ∧ (∀ s : HashSet α, HashSet.WF s →
      (HashSet.decode (streamDec e0) (atomDec e0 Except.ok)
          ((HashSet.encode (traceEnc : EncoderOps (List (Ev α)) ε) (atomEnc id) s []).2,
            [])).1
        = Except.ok { elems := s.elems, cap := s.elems.length })
    ∧ (∀ m : VecMap ν, VecMap.WF m →
      (VecMap.decode (streamDec e0) (atomDec e0 (inlDec e0)) (atomDec e0 (inrDec e0))
          ((VecMap.encode (traceEnc : EncoderOps (List (Ev (Nat ⊕ ν))) ε)
              (atomEnc Sum.inl) (atomEnc Sum.inr) m []).2, [])).1
        = Except.ok m) := by
  refine ⟨?_, ?_, ?_, ?_, ?_, ?_, ?_⟩
  · intro l
    simp [DList.encode, DList.decode, traceEnc_seq, streamDec_seq, encodeSeqElts_trace,
      decodeSeqElts_rt_nil e0 Except.ok id (fun _ => rfl) DList.push_back l,
      dlist_foldl_push_back, DList.new]
  · intro q
    simp [RingBuf.encode, RingBuf.decode, traceEnc_seq, streamDec_seq, encodeSeqElts_trace,
      decodeSeqElts_rt_nil e0 Except.ok id (fun _ => rfl) RingBuf.push_back q,
      ringBuf_foldl_push_back, RingBuf.new]
  · intro m hWF
    have hreb := btreeMap_foldl_rebuild m ([] : BTreeMap κ ν)
      (by simpa [BTreeMap.WF] using hWF)
    simp [BTreeMap.encode, BTreeMap.decode, traceEnc_map, streamDec_map, encodeMapElts_trace,
      decodeMapElts_rt_nil e0 (inlDec e0) Sum.inl (inrDec e0) Sum.inr
        (fun _ => rfl) (fun _ => rfl) BTreeMap.insert m,
      BTreeMap.len, hreb, BTreeMap.new]
  · intro s hWF
    have hreb := btreeSet_foldl_rebuild s ([] : BTreeSet α)
      (by simpa [BTreeSet.WF] using hWF)
    simp [BTreeSet.encode, BTreeSet.decode, traceEnc_seq, streamDec_seq, encodeSeqElts_trace,
      decodeSeqElts_rt_nil e0 Except.ok id (fun _ => rfl) BTreeSet.insert s,
      BTreeSet.len, hreb, BTreeSet.new]
  · intro m hWF
    have hreb := hashMap_foldl_rebuild m.entries
      { entries := [], cap := m.entries.length }
      (by simpa [HashMap.WF] using hWF) (by simp)
    simp [HashMap.encode, HashMap.decode, traceEnc_map, streamDec_map, encodeMapElts_trace,
      decodeMapElts_rt_nil e0 (inlDec e0) Sum.inl (inrDec e0) Sum.inr
        (fun _ => rfl) (fun _ => rfl) HashMap.insert m.entries,
      HashMap.len, HashMap.with_capacity_and_hasher, hreb]
  · intro s hWF
    have hreb := hashSet_foldl_rebuild s.elems
      { elems := [], cap := s.elems.length }
      (by simpa [HashSet.WF] using hWF) (by simp)
    simp [HashSet.encode, HashSet.decode, traceEnc_seq, streamDec_seq, encodeSeqElts_trace,
      decodeSeqElts_rt_nil e0 Except.ok id (fun _ => rfl) HashSet.insert s.elems,
      HashSet.len, HashSet.with_capacity_and_hasher, hreb]
  · intro m hWF
    have hreb := btreeMap_foldl_rebuild m ([] : BTreeMap Nat ν)
      (by simpa [BTreeMap.WF, VecMap.WF] using hWF)
    simp [VecMap.encode, VecMap.decode, VecMap.insert, VecMap.new, VecMap.len,
      traceEnc_map, streamDec_map, encodeMapElts_trace,
      decodeMapElts_rt_nil e0 (inlDec e0) Sum.inl (inrDec e0) Sum.inr
        (fun _ => rfl) (fun _ => rfl) VecMap.insert m,
      BTreeMap.len, hreb, BTreeMap.new]

/-- C3: a fully successful encode of a container of length N issues
exactly N element-visitation calls (sequence kinds) or exactly N key and
N value visitation calls (map kinds), whose index arguments are exactly
`0..N-1` in increasing order — the extracted index lists equal
`List.range N`, which has no repeats and no gaps. -/
theorem claim_C3_arity {ε υ κ ν α : Type} :
    (∀ (g : α → υ) (l : DList α),
      (DList.encode (traceEnc : EncoderOps (List (Ev υ)) ε) (atomEnc g) l []).1
          = Except.ok ()
      ∧ seqEltIndices
          (DList.encode (traceEnc : EncoderOps (List (Ev υ)) ε) (atomEnc g) l []).2
          = List.range (List.length l))
    ∧ (∀ (g : α → υ) (q : RingBuf α),
      (RingBuf.encode (traceEnc : EncoderOps (List (Ev υ)) ε) (atomEnc g) q []).1
          = Except.ok ()
      ∧ seqEltIndices
          (RingBuf.encode (traceEnc : EncoderOps (List (Ev υ)) ε) (atomEnc g) q []).2
          = List.range (List.length q))
    ∧ (∀ (gK : κ → υ) (gV : ν → υ) (m : BTreeMap κ ν),
      (BTreeMap.encode (traceEnc : EncoderOps (List (Ev υ)) ε)
          (atomEnc gK) (atomEnc gV) m []).1 = Except.ok ()
      ∧ mapKeyIndices (BTreeMap.encode (traceEnc : EncoderOps (List (Ev υ)) ε)
          (atomEnc gK) (atomEnc gV) m []).2 = List.range (BTreeMap.len m)
      ∧ mapValIndices (BTreeMap.encode (traceEnc : EncoderOps (List (Ev υ)) ε)
          (atomEnc gK) (atomEnc gV) m []).2 = List.range (BTreeMap.len m))
    ∧ (∀ (g : α → υ) (s : BTreeSet α),
      (BTreeSet.encode (traceEnc : EncoderOps (List (Ev υ)) ε) (atomEnc g) s []).1
          = Except.ok ()
      ∧ seqEltIndices
          (BTreeSet.encode (traceEnc : EncoderOps (List (Ev υ)) ε) (atomEnc g) s []).2
          = List.range (BTreeSet.len s))
    ∧ (∀ (gK : κ → υ) (gV : ν → υ) (m : HashMap κ ν),
      (HashMap.encode (traceEnc : EncoderOps (List (Ev υ)) ε)
          (atomEnc gK) (atomEnc gV) m []).1 = Except.ok ()
      ∧ mapKeyIndices (HashMap.encode (traceEnc : EncoderOps (List (Ev υ)) ε)
          (atomEnc gK) (atomEnc gV) m []).2 = List.range (HashMap.len m)
      ∧ mapValIndices (HashMap.encode (traceEnc : EncoderOps (List (Ev υ)) ε)
          (atomEnc gK) (atomEnc gV) m []).2 = List.range (HashMap.len m))
    ∧ (∀ (g : α → υ) (s : HashSet α),
      (HashSet.encode (traceEnc : EncoderOps (List (Ev υ)) ε) (atomEnc g) s []).1
          = Except.ok ()
      ∧ seqEltIndices
          (HashSet.encode (traceEnc : EncoderOps (List (Ev υ)) ε) (atomEnc g) s []).2
          = List.range (HashSet.len s))
    ∧ (∀ (gK : Nat → υ) (gV : ν → υ) (m : VecMap ν),
      (VecMap.encode (traceEnc : EncoderOps (List (Ev υ)) ε)
          (atomEnc gK) (atomEnc gV) m []).1 = Except.ok ()
      ∧ mapKeyIndices (VecMap.encode (traceEnc : EncoderOps (List (Ev υ)) ε)
          (atomEnc gK) (atomEnc gV) m []).2 = List.range (VecMap.len m)
      ∧ mapValIndices (VecMap.encode (traceEnc : EncoderOps (List (Ev υ)) ε)
          (atomEnc gK) (atomEnc gV) m []).2 = List.range (VecMap.len m)) := by
  refine ⟨?_, ?_, ?_, ?_, ?_, ?_, ?_⟩
  · intro g l
    refine ⟨by simp [DList.encode, traceEnc_seq, encodeSeqElts_trace], ?_⟩
    simp [DList.encode, traceEnc_seq, encodeSeqElts_trace, seqEltIndices,
      seqEltIndices_seqTokens, List.range_eq_range']
  · intro g q
    refine ⟨by simp [RingBuf.encode, traceEnc_seq, encodeSeqElts_trace], ?_⟩
    simp [RingBuf.encode, traceEnc_seq, encodeSeqElts_trace, seqEltIndices,
      seqEltIndices_seqTokens, List.range_eq_range']
  · intro gK gV m
    refine ⟨by simp [BTreeMap.encode, traceEnc_map, encodeMapElts_trace], ?_, ?_⟩
    · simp [BTreeMap.encode, traceEnc_map, encodeMapElts_trace, mapKeyIndices,
        mapKeyIndices_mapTokens, List.range_eq_range', BTreeMap.len]
    · simp [BTreeMap.encode, traceEnc_map, encodeMapElts_trace, mapValIndices,
        mapValIndices_mapTokens, List.range_eq_range', BTreeMap.len]
  · intro g s
    refine ⟨by simp [BTreeSet.encode, traceEnc_seq, encodeSeqElts_trace], ?_⟩
    simp [BTreeSet.encode, traceEnc_seq, encodeSeqElts_trace, seqEltIndices,
      seqEltIndices_seqTokens, List.range_eq_range', BTreeSet.len]
  · intro gK gV m
    refine ⟨by simp [HashMap.encode, traceEnc_map, encodeMapElts_trace], ?_, ?_⟩
    · simp [HashMap.encode, traceEnc_map, encodeMapElts_trace, mapKeyIndices,
        mapKeyIndices_mapTokens, List.range_eq_range', HashMap.len]
    · simp [HashMap.encode, traceEnc_map, encodeMapElts_trace, mapValIndices,
        mapValIndices_mapTokens, List.range_eq_range', HashMap.len]
  · intro g s
    refine ⟨by simp [HashSet.encode, traceEnc_seq, encodeSeqElts_trace], ?_⟩
    simp [HashSet.encode, traceEnc_seq, encodeSeqElts_trace, seqEltIndices,
      seqEltIndices_seqTokens, List.range_eq_range', HashSet.len]
  · intro gK gV m
    refine ⟨by simp [VecMap.encode, traceEnc_map, encodeMapElts_trace], ?_, ?_⟩
    · simp [VecMap.encode, traceEnc_map, encodeMapElts_trace, mapKeyIndices,
        mapKeyIndices_mapTokens, List.range_eq_range', VecMap.len, BTreeMap.len]
    · simp [VecMap.encode, traceEnc_map, encodeMapElts_trace, mapValIndices,
        mapValIndices_mapTokens, List.range_eq_range', VecMap.len, BTreeMap.len]

/-- C4: for every map-like kind, the subsequence of key/value visitation
calls in the trace of a successful encode is exactly key 0, value 0,
key 1, value 1, ..., key N-1, value N-1: key immediately before value for
each index, indices in increasing order. -/
theorem claim_C4_key_before_val {ε υ κ ν : Type} :
    (∀ (gK : κ → υ) (gV : ν → υ) (m : BTreeMap κ ν),
      mapCalls (BTreeMap.encode (traceEnc : EncoderOps (List (Ev υ)) ε)
          (atomEnc gK) (atomEnc gV) m []).2 = pairCalls (BTreeMap.len m) 0)
    ∧ (∀ (gK : κ → υ) (gV : ν → υ) (m : HashMap κ ν),
      mapCalls (HashMap.encode (traceEnc : EncoderOps (List (Ev υ)) ε)
          (atomEnc gK) (atomEnc gV) m []).2 = pairCalls (HashMap.len m) 0)
    ∧ (∀ (gK : Nat → υ) (gV : ν → υ) (m : VecMap ν),
      mapCalls (VecMap.encode (traceEnc : EncoderOps (List (Ev υ)) ε)
          (atomEnc gK) (atomEnc gV) m []).2 = pairCalls (VecMap.len m) 0) := by
  refine ⟨?_, ?_, ?_⟩
  · intro gK gV m
    simp [BTreeMap.encode, traceEnc_map, encodeMapElts_trace, mapCalls,
      mapCalls_mapTokens, BTreeMap.len]
  · intro gK gV m
    simp [HashMap.encode, traceEnc_map, encodeMapElts_trace, mapCalls,
      mapCalls_mapTokens, HashMap.len]
  · intro gK gV m
    simp [VecMap.encode, traceEnc_map, encodeMapElts_trace, mapCalls,
      mapCalls_mapTokens, VecMap.len, BTreeMap.len]

/-- C5: the sequence/deque decode loops append each decoded element at
the tail of the container under construction, so decoding the encoding
of a DList or RingBuf yields a container with the identical,
element-for-element iteration order. -/
theorem claim_C5_seq_order {ε α : Type} (e0 : ε) :
    (∀ (as : List α) (i : Nat) (c : DList α) (log : List (Ev α)),
      decodeSeqElts (streamDec e0) (atomDec e0 Except.ok) DList.push_back i
          (List.length as) c (seqTokens id as i, log)
        = (Except.ok (c ++ as),
           ([], log ++ (List.range' i (List.length as)).map Ev.seqElt)))
    ∧ (∀ (as : List α) (i : Nat) (c : RingBuf α) (log : List (Ev α)),
      decodeSeqElts (streamDec e0) (atomDec e0 Except.ok) RingBuf.push_back i
          (List.length as) c (seqTokens id as i, log)
        = (Except.ok (c ++ as),
           ([], log ++ (List.range' i (List.length as)).map Ev.seqElt)))
    ∧ (∀ l : DList α,
      (DList.decode (streamDec e0) (atomDec e0 Except.ok)
          ((DList.encode (traceEnc : EncoderOps (List (Ev α)) ε) (atomEnc id) l []).2,
            [])).1
        = Except.ok l)
    ∧ (∀ q : RingBuf α,
      (RingBuf.decode (streamDec e0) (atomDec e0 Except.ok)
          ((RingBuf.encode (traceEnc : EncoderOps (List (Ev α)) ε) (atomEnc id) q []).2,
            [])).1
        = Except.ok q) := by
  refine ⟨?_, ?_, ?_, ?_⟩
  · intro as i c log
    simp [decodeSeqElts_rt_nil e0 Except.ok id (fun _ => rfl) DList.push_back as,
      dlist_foldl_push_back]
  · intro as i c log
    simp [decodeSeqElts_rt_nil e0 Except.ok id (fun _ => rfl) RingBuf.push_back as,
      ringBuf_foldl_push_back]
  · intro l
    simp [DList.encode, DList.decode, traceEnc_seq, streamDec_seq, encodeSeqElts_trace,
      decodeSeqElts_rt_nil e0 Except.ok id (fun _ => rfl) DList.push_back l,
      dlist_foldl_push_back, DList.new]
  · intro q
    simp [RingBuf.encode, RingBuf.decode, traceEnc_seq, streamDec_seq, encodeSeqElts_trace,
      decodeSeqElts_rt_nil e0 Except.ok id (fun _ => rfl) RingBuf.push_back q,
      ringBuf_foldl_push_back, RingBuf.new]

/-- C7: for every container kind, encoding the empty container opens the
frame with length 0 and issues zero element/pair visits — the trace is
exactly the frame event; and decoding a frame whose reported length is 0
succeeds and returns the empty container, issuing no element decoder
calls at all (the element decoder is arbitrary). -/
theorem claim_C7_empty {ε υ κ ν α : Type} [LinearOrder κ] [LinearOrder α]
    [DecidableEq κ] [DecidableEq α] (e0 : ε) :
    (∀ g : α → υ,
      DList.encode (traceEnc : EncoderOps (List (Ev υ)) ε) (atomEnc g) DList.new []
        = (Except.ok (), [Ev.seqFrame 0]))
    ∧ (∀ g : α → υ,
      RingBuf.encode (traceEnc : EncoderOps (List (Ev υ)) ε) (atomEnc g) RingBuf.new []
        = (Except.ok (), [Ev.seqFrame 0]))
    ∧ (∀ (gK : κ → υ) (gV : ν → υ),
      BTreeMap.encode (traceEnc : EncoderOps (List (Ev υ)) ε)
          (atomEnc gK) (atomEnc gV) BTreeMap.new []
        = (Except.ok (), [Ev.mapFrame 0]))
    ∧ (∀ g : α → υ,
      BTreeSet.encode (traceEnc : EncoderOps (List (Ev υ)) ε) (atomEnc g) BTreeSet.new []
        = (Except.ok (), [Ev.seqFrame 0]))
    ∧ (∀ (gK : κ → υ) (gV : ν → υ) (c : Nat),
      HashMap.encode (traceEnc : EncoderOps (List (Ev υ)) ε)
          (atomEnc gK) (atomEnc gV) { entries := [], cap := c }
        [] = (Except.ok (), [Ev.mapFrame 0]))
    ∧ (∀ (g : α → υ) (c : Nat),
      HashSet.encode (traceEnc : EncoderOps (List (Ev υ)) ε) (atomEnc g)
          { elems := [], cap := c } []
        = (Except.ok (), [Ev.seqFrame 0]))
    ∧ (∀ (gK : Nat → υ) (gV : ν → υ),
      VecMap.encode (traceEnc : EncoderOps (List (Ev υ)) ε)
          (atomEnc gK) (atomEnc gV) VecMap.new []
        = (Except.ok (), [Ev.mapFrame 0]))
    ∧ (∀ (decT : DState υ → Except ε α × DState υ) (rest log : List (Ev υ)),
      DList.decode (streamDec e0) decT (Ev.seqFrame 0 :: rest, log)
        = (Except.ok DList.new, (rest, log ++ [Ev.seqFrame 0])))
    ∧ (∀ (decT : DState υ → Except ε α × DState υ) (rest log : List (Ev υ)),
      RingBuf.decode (streamDec e0) decT (Ev.seqFrame 0 :: rest, log)
        = (Except.ok RingBuf.new, (rest, log ++ [Ev.seqFrame 0])))
    ∧ (∀ (decK : DState υ → Except ε κ × DState υ)
        (decV : DState υ → Except ε ν × DState υ) (rest log : List (Ev υ)),
      BTreeMap.decode (streamDec e0) decK decV (Ev.mapFrame 0 :: rest, log)
        = (Except.ok BTreeMap.new, (rest, log ++ [Ev.mapFrame 0])))
    ∧ (∀ (decT : DState υ → Except ε α × DState υ) (rest log : List (Ev υ)),
      BTreeSet.decode (streamDec e0) decT (Ev.seqFrame 0 :: rest, log)
        = (Except.ok BTreeSet.new, (rest, log ++ [Ev.seqFrame 0])))
    ∧ (∀ (decK : DState υ → Except ε κ × DState υ)
        (decV : DState υ → Except ε ν × DState υ) (rest log : List (Ev υ)),
      HashMap.decode (streamDec e0) decK decV (Ev.mapFrame 0 :: rest, log)
        = (Except.ok (HashMap.with_capacity_and_hasher 0),
           (rest, log ++ [Ev.mapFrame 0])))
    ∧ (∀ (decT : DState υ → Except ε α × DState υ) (rest log : List (Ev υ)),
      HashSet.decode (streamDec e0) decT (Ev.seqFrame 0 :: rest, log)
        = (Except.ok (HashSet.with_capacity_and_hasher 0),
           (rest, log ++ [Ev.seqFrame 0])))
    ∧ (∀ (decK : DState υ → Except ε Nat × DState υ)
        (decV : DState υ → Except ε ν × DState υ) (rest log : List (Ev υ)),
      VecMap.decode (streamDec e0) decK decV (Ev.mapFrame 0 :: rest, log)
        = (Except.ok VecMap.new, (rest, log ++ [Ev.mapFrame 0]))) := by
  refine ⟨?_, ?_, ?_, ?_, ?_, ?_, ?_, ?_, ?_, ?_, ?_, ?_, ?_, ?_⟩
  · intro g
    simp [DList.encode, DList.new, traceEnc_seq, encodeSeqElts]
  · intro g
    simp [RingBuf.encode, RingBuf.new, traceEnc_seq, encodeSeqElts]
  · intro gK gV
    simp [BTreeMap.encode, BTreeMap.new, BTreeMap.len, traceEnc_map, encodeMapElts]
  · intro g
    simp [BTreeSet.encode, BTreeSet.new, BTreeSet.len, traceEnc_seq, encodeSeqElts]
  · intro gK gV c
    simp [HashMap.encode, HashMap.len, traceEnc_map, encodeMapElts]
  · intro g c
    simp [HashSet.encode, HashSet.len, traceEnc_seq, encodeSeqElts]
  · intro gK gV
    simp [VecMap.encode, VecMap.new, VecMap.len, BTreeMap.new, BTreeMap.len,
      traceEnc_map, encodeMapElts]
  · intro decT rest log
    simp [DList.decode, DList.new, streamDec_seq, decodeSeqElts]
  · intro decT rest log
    simp [RingBuf.decode, RingBuf.new, streamDec_seq, decodeSeqElts]
  · intro decK decV rest log
    simp [BTreeMap.decode, BTreeMap.new, streamDec_map, decodeMapElts]
  · intro decT rest log
    simp [BTreeSet.decode, BTreeSet.new, streamDec_seq, decodeSeqElts]
  · intro decK decV rest log
    simp [HashMap.decode, streamDec_map, decodeMapElts]
  · intro decT rest log
    simp [HashSet.decode, streamDec_seq, decodeSeqElts]
  · intro decK decV rest log
    simp [VecMap.decode, VecMap.new, BTreeMap.new, streamDec_map, decodeMapElts]

/-- C6: fail-fast propagation, decode and encode, for every container
kind.  Decode: when the element, key, or value at position k fails —
after k successfully decoded items, with more items announced by the
frame — the adapter performs no reads past the failing one (the read log
stops at index k) and returns exactly that failure.  Encode: when the
k-th element fails to encode, or the key or the value of the k-th entry
does, the trace stops at that visit — in particular a failing key's value
is never visited — and the failure is returned unchanged. -/
theorem claim_C6_fail_fast {ε κ ν α : Type} [LinearOrder κ] [LinearOrder α]
    [DecidableEq κ] [DecidableEq α] (e0 : ε) :
    (∀ (as : List α) (er : ε) (n : Nat) (rest : List (Ev (Except ε α))),
      DList.decode (streamDec e0) (atomDec e0 id)
          (Ev.seqFrame (List.length as + n + 1)
             :: (seqTokens Except.ok as 0
                 ++ Ev.seqElt (List.length as) :: Ev.atom (Except.error er) :: rest), [])
        = (Except.error er,
           (rest, Ev.seqFrame (List.length as + n + 1)
              :: (List.range (List.length as + 1)).map Ev.seqElt)))
    ∧ (∀ (as : List α) (er : ε) (n : Nat) (rest : List (Ev (Except ε α))),
      RingBuf.decode (streamDec e0) (atomDec e0 id)
          (Ev.seqFrame (List.length as + n + 1)
             :: (seqTokens Except.ok as 0
                 ++ Ev.seqElt (List.length as) :: Ev.atom (Except.error er) :: rest), [])
        = (Except.error er,
           (rest, Ev.seqFrame (List.length as + n + 1)
              :: (List.range (List.length as + 1)).map Ev.seqElt)))
    ∧ (∀ (as : List α) (er : ε) (n : Nat) (rest : List (Ev (Except ε α))),
      BTreeSet.decode (streamDec e0) (atomDec e0 id)
          (Ev.seqFrame (List.length as + n + 1)
             :: (seqTokens Except.ok as 0
                 ++ Ev.seqElt (List.length as) :: Ev.atom (Except.error er) :: rest), [])
        = (Except.error er,
           (rest, Ev.seqFrame (List.length as + n + 1)
              :: (List.range (List.length as + 1)).map Ev.seqElt)))
    ∧ (∀ (as : List α) (er : ε) (n : Nat) (rest : List (Ev (Except ε α))),
      HashSet.decode (streamDec e0) (atomDec e0 id)
          (Ev.seqFrame (List.length as + n + 1)
             :: (seqTokens Except.ok as 0
                 ++ Ev.seqElt (List.length as) :: Ev.atom (Except.error er) :: rest), [])
        = (Except.error er,
           (rest, Ev.seqFrame (List.length as + n + 1)
              :: (List.range (List.length as + 1)).map Ev.seqElt)))
    ∧ (∀ (ps : List (κ × ν)) (er : ε) (n : Nat)
        (rest : List (Ev (Except ε κ ⊕ Except ε ν))),
      BTreeMap.decode (streamDec e0) (atomDec e0 (exlDec e0)) (atomDec e0 (exrDec e0))
          (Ev.mapFrame (List.length ps + n + 1)
             :: (mapTokens (fun k => Sum.inl (Except.ok k))
                   (fun v => Sum.inr (Except.ok v)) ps 0
                 ++ Ev.mapKey (List.length ps)
                   :: Ev.atom (Sum.inl (Except.error er)) :: rest), [])
        = (Except.error er,
           (rest, Ev.mapFrame (List.length ps + n + 1)
              :: (mapReadLog (List.length ps) 0 ++ [Ev.mapKey (List.length ps)]))))
    ∧ (∀ (ps : List (κ × ν)) (kb : κ) (er : ε) (n : Nat)
        (rest : List (Ev (Except ε κ ⊕ Except ε ν))),
      BTreeMap.decode (streamDec e0) (atomDec e0 (exlDec e0)) (atomDec e0 (exrDec e0))
          (Ev.mapFrame (List.length ps + n + 1)
             :: (mapTokens (fun k => Sum.inl (Except.ok k))
                   (fun v => Sum.inr (Except.ok v)) ps 0
                 ++ Ev.mapKey (List.length ps) :: Ev.atom (Sum.inl (Except.ok kb))
                   :: Ev.mapVal (List.length ps)
                   :: Ev.atom (Sum.inr (Except.error er)) :: rest), [])
        = (Except.error er,
           (rest, Ev.mapFrame (List.length ps + n + 1)
              :: (mapReadLog (List.length ps) 0
                  ++ [Ev.mapKey (List.length ps), Ev.mapVal (List.length ps)]))))
    ∧ (∀ (ps : List (κ × ν)) (er : ε) (n : Nat)
        (rest : List (Ev (Except ε κ ⊕ Except ε ν))),
      HashMap.decode (streamDec e0) (atomDec e0 (exlDec e0)) (atomDec e0 (exrDec e0))
          (Ev.mapFrame (List.length ps + n + 1)
             :: (mapTokens (fun k => Sum.inl (Except.ok k))
                   (fun v => Sum.inr (Except.ok v)) ps 0
                 ++ Ev.mapKey (List.length ps)
                   :: Ev.atom (Sum.inl (Except.error er)) :: rest), [])
        = (Except.error er,
           (rest, Ev.mapFrame (List.length ps + n + 1)
              :: (mapReadLog (List.length ps) 0 ++ [Ev.mapKey (List.length ps)]))))
    ∧ (∀ (ps : List (κ × ν)) (kb : κ) (er : ε) (n : Nat)
        (rest : List (Ev (Except ε κ ⊕ Except ε ν))),
      HashMap.decode (streamDec e0) (atomDec e0 (exlDec e0)) (atomDec e0 (exrDec e0))
          (Ev.mapFrame (List.length ps + n + 1)
             :: (mapTokens (fun k => Sum.inl (Except.ok k))
                   (fun v => Sum.inr (Except.ok v)) ps 0
                 ++ Ev.mapKey (List.length ps) :: Ev.atom (Sum.inl (Except.ok kb))
                   :: Ev.mapVal (List.length ps)
                   :: Ev.atom (Sum.inr (Except.error er)) :: rest), [])
        = (Except.error er,
           (rest, Ev.mapFrame (List.length ps + n + 1)
              :: (mapReadLog (List.length ps) 0
                  ++ [Ev.mapKey (List.length ps), Ev.mapVal (List.length ps)]))))
    ∧ (∀ (ps : List (Nat × ν)) (er : ε) (n : Nat)
        (rest : List (Ev (Except ε Nat ⊕ Except ε ν))),
      VecMap.decode (streamDec e0) (atomDec e0 (exlDec e0)) (atomDec e0 (exrDec e0))
          (Ev.mapFrame (List.length ps + n + 1)
             :: (mapTokens (fun k => Sum.inl (Except.ok k))
                   (fun v => Sum.inr (Except.ok v)) ps 0
                 ++ Ev.mapKey (List.length ps)
                   :: Ev.atom (Sum.inl (Except.error er)) :: rest), [])
        = (Except.error er,
           (rest, Ev.mapFrame (List.length ps + n + 1)
              :: (mapReadLog (List.length ps) 0 ++ [Ev.mapKey (List.length ps)]))))
    ∧ (∀ (ps : List (Nat × ν)) (kb : Nat) (er : ε) (n : Nat)
        (rest : List (Ev (Except ε Nat ⊕ Except ε ν))),
      VecMap.decode (streamDec e0) (atomDec e0 (exlDec e0)) (atomDec e0 (exrDec e0))
          (Ev.mapFrame (List.length ps + n + 1)
             :: (mapTokens (fun k => Sum.inl (Except.ok k))
                   (fun v => Sum.inr (Except.ok v)) ps 0
                 ++ Ev.mapKey (List.length ps) :: Ev.atom (Sum.inl (Except.ok kb))
                   :: Ev.mapVal (List.length ps)
                   :: Ev.atom (Sum.inr (Except.error er)) :: rest), [])
        = (Except.error er,
           (rest, Ev.mapFrame (List.length ps + n + 1)
              :: (mapReadLog (List.length ps) 0
                  ++ [Ev.mapKey (List.length ps), Ev.mapVal (List.length ps)]))))
    ∧ (∀ (k : Nat) (er : ε) (rest : List (Except ε Unit)),
      DList.encode (traceEnc : EncoderOps (List (Ev (Except ε Unit))) ε) (outcomeEnc id)
          (List.replicate k (Except.ok ()) ++ Except.error er :: rest) []
        = (Except.error er,
           Ev.seqFrame (List.length (List.replicate k (Except.ok ())
               ++ Except.error er :: rest))
             :: (seqTokens id (List.replicate k (Except.ok ())) 0
                 ++ [Ev.seqElt k, Ev.atom (Except.error er)])))
    ∧ (∀ (k : Nat) (er : ε) (rest : List (Except ε Unit)),
      RingBuf.encode (traceEnc : EncoderOps (List (Ev (Except ε Unit))) ε) (outcomeEnc id)
          (List.replicate k (Except.ok ()) ++ Except.error er :: rest) []
        = (Except.error er,
           Ev.seqFrame (List.length (List.replicate k (Except.ok ())
               ++ Except.error er :: rest))
             :: (seqTokens id (List.replicate k (Except.ok ())) 0
                 ++ [Ev.seqElt k, Ev.atom (Except.error er)])))
    ∧ (∀ (k : Nat) (er : ε) (rest : List (Except ε Unit)),
      BTreeSet.encode (traceEnc : EncoderOps (List (Ev (Except ε Unit))) ε) (outcomeEnc id)
          (List.replicate k (Except.ok ()) ++ Except.error er :: rest) []
        = (Except.error er,
           Ev.seqFrame (List.length (List.replicate k (Except.ok ())
               ++ Except.error er :: rest))
             :: (seqTokens id (List.replicate k (Except.ok ())) 0
                 ++ [Ev.seqElt k, Ev.atom (Except.error er)])))
    ∧ (∀ (k : Nat) (er : ε) (c : Nat) (rest : List (Except ε Unit)),
      HashSet.encode (traceEnc : EncoderOps (List (Ev (Except ε Unit))) ε) (outcomeEnc id)
          { elems := List.replicate k (Except.ok ()) ++ Except.error er :: rest, cap := c } []
        = (Except.error er,
           Ev.seqFrame (List.length (List.replicate k (Except.ok ())
               ++ Except.error er :: rest))
             :: (seqTokens id (List.replicate k (Except.ok ())) 0
                 ++ [Ev.seqElt k, Ev.atom (Except.error er)])))
    ∧ (∀ (ks : List κ) (kb : κ) (er : ε) (rest : List (κ × Except ε Unit)),
      BTreeMap.encode (traceEnc : EncoderOps (List (Ev (κ ⊕ Except ε Unit))) ε)
          (atomEnc Sum.inl) (outcomeEnc Sum.inr)
          (List.map (fun k => (k, Except.ok ())) ks ++ (kb, Except.error er) :: rest) []
        = (Except.error er,
           Ev.mapFrame (List.length (List.map (fun k => (k, Except.ok ())) ks
               ++ (kb, Except.error er) :: rest))
             :: (mapTokens Sum.inl Sum.inr (List.map (fun k => (k, Except.ok ())) ks) 0
                 ++ [Ev.mapKey (List.length ks), Ev.atom (Sum.inl kb),
                     Ev.mapVal (List.length ks), Ev.atom (Sum.inr (Except.error er))])))
    ∧ (∀ (ks : List κ) (kb : κ) (er : ε) (c : Nat) (rest : List (κ × Except ε Unit)),
      HashMap.encode (traceEnc : EncoderOps (List (Ev (κ ⊕ Except ε Unit))) ε)
          (atomEnc Sum.inl) (outcomeEnc Sum.inr)
          { entries := List.map (fun k => (k, Except.ok ())) ks
              ++ (kb, Except.error er) :: rest, cap := c } []
        = (Except.error er,
           Ev.mapFrame (List.length (List.map (fun k => (k, Except.ok ())) ks
               ++ (kb, Except.error er) :: rest))
             :: (mapTokens Sum.inl Sum.inr (List.map (fun k => (k, Except.ok ())) ks) 0
                 ++ [Ev.mapKey (List.length ks), Ev.atom (Sum.inl kb),
                     Ev.mapVal (List.length ks), Ev.atom (Sum.inr (Except.error er))])))
    ∧ (∀ (ks : List Nat) (kb : Nat) (er : ε) (rest : List (Nat × Except ε Unit)),
      VecMap.encode (traceEnc : EncoderOps (List (Ev (Nat ⊕ Except ε Unit))) ε)
          (atomEnc Sum.inl) (outcomeEnc Sum.inr)
          (List.map (fun k => (k, Except.ok ())) ks ++ (kb, Except.error er) :: rest) []
        = (Except.error er,
           Ev.mapFrame (List.length (List.map (fun k => (k, Except.ok ())) ks
               ++ (kb, Except.error er) :: rest))
             :: (mapTokens Sum.inl Sum.inr (List.map (fun k => (k, Except.ok ())) ks) 0
                 ++ [Ev.mapKey (List.length ks), Ev.atom (Sum.inl kb),
                     Ev.mapVal (List.length ks), Ev.atom (Sum.inr (Except.error er))])))
    ∧ (∀ (g : κ → Except ε Unit) (ps : List (κ × ν)) (kb : κ) (vb : ν) (er : ε)
        (rest : List (κ × ν)),
      (∀ p ∈ ps, g p.1 = Except.ok ()) → g kb = Except.error er →
      BTreeMap.encode (traceEnc : EncoderOps (List (Ev (κ ⊕ ν))) ε)
          (oracleEnc g Sum.inl) (atomEnc Sum.inr) (ps ++ (kb, vb) :: rest) []
        = (Except.error er,
           Ev.mapFrame (List.length (ps ++ (kb, vb) :: rest))
             :: (mapTokens Sum.inl Sum.inr ps 0
                 ++ [Ev.mapKey (List.length ps), Ev.atom (Sum.inl kb)])))
    ∧ (∀ (g : κ → Except ε Unit) (ps : List (κ × ν)) (kb : κ) (vb : ν) (er : ε)
        (c : Nat) (rest : List (κ × ν)),
      (∀ p ∈ ps, g p.1 = Except.ok ()) → g kb = Except.error er →
      HashMap.encode (traceEnc : EncoderOps (List (Ev (κ ⊕ ν))) ε)
          (oracleEnc g Sum.inl) (atomEnc Sum.inr)
          { entries := ps ++ (kb, vb) :: rest, cap := c } []
        = (Except.error er,
           Ev.mapFrame (List.length (ps ++ (kb, vb) :: rest))
             :: (mapTokens Sum.inl Sum.inr ps 0
                 ++ [Ev.mapKey (List.length ps), Ev.atom (Sum.inl kb)])))
    ∧ (∀ (g : Nat → Except ε Unit) (ps : List (Nat × ν)) (kb : Nat) (vb : ν) (er : ε)
        (rest : List (Nat × ν)),
      (∀ p ∈ ps, g p.1 = Except.ok ()) → g kb = Except.error er →
      VecMap.encode (traceEnc : EncoderOps (List (Ev (Nat ⊕ ν))) ε)
          (oracleEnc g Sum.inl) (atomEnc Sum.inr) (ps ++ (kb, vb) :: rest) []
        = (Except.error er,
           Ev.mapFrame (List.length (ps ++ (kb, vb) :: rest))
             :: (mapTokens Sum.inl Sum.inr ps 0
                 ++ [Ev.mapKey (List.length ps), Ev.atom (Sum.inl kb)]))) := by
  refine ⟨?_, ?_, ?_, ?_, ?_, ?_, ?_, ?_, ?_, ?_, ?_, ?_, ?_, ?_, ?_, ?_, ?_, ?_, ?_, ?_⟩
  · intro as er n rest
    have h := decodeSeqElts_fail e0 id Except.ok (fun _ => rfl) (Except.error er) er rfl
      DList.push_back as n 0 DList.new rest [Ev.seqFrame (List.length as + n + 1)]
    simp only [Nat.zero_add] at h
    simp [DList.decode, streamDec_seq, h, List.range_eq_range']
  · intro as er n rest
    have h := decodeSeqElts_fail e0 id Except.ok (fun _ => rfl) (Except.error er) er rfl
      RingBuf.push_back as n 0 RingBuf.new rest [Ev.seqFrame (List.length as + n + 1)]
    simp only [Nat.zero_add] at h
    simp [RingBuf.decode, streamDec_seq, h, List.range_eq_range']
  · intro as er n rest
    have h := decodeSeqElts_fail e0 id Except.ok (fun _ => rfl) (Except.error er) er rfl
      BTreeSet.insert as n 0 BTreeSet.new rest [Ev.seqFrame (List.length as + n + 1)]
    simp only [Nat.zero_add] at h
    simp [BTreeSet.decode, streamDec_seq, h, List.range_eq_range']
  · intro as er n rest
    have h := decodeSeqElts_fail e0 id Except.ok (fun _ => rfl) (Except.error er) er rfl
      HashSet.insert as n 0 (HashSet.with_capacity_and_hasher (List.length as + n + 1))
      rest [Ev.seqFrame (List.length as + n + 1)]
    simp only [Nat.zero_add] at h
    simp [HashSet.decode, streamDec_seq, h, List.range_eq_range']
  · intro ps er n rest
    have h := decodeMapElts_keyFail e0 (exlDec e0) (fun k => Sum.inl (Except.ok k))
      (exrDec e0) (fun v => Sum.inr (Except.ok v)) (fun _ => rfl) (fun _ => rfl)
      (Sum.inl (Except.error er)) er rfl BTreeMap.insert ps n 0 BTreeMap.new rest
      [Ev.mapFrame (List.length ps + n + 1)]
    simp only [Nat.zero_add] at h
    simp [BTreeMap.decode, streamDec_map, h]
  · intro ps kb er n rest
    have h := decodeMapElts_valFail e0 (exlDec e0) (fun k => Sum.inl (Except.ok k))
      (exrDec e0) (fun v => Sum.inr (Except.ok v)) (fun _ => rfl) (fun _ => rfl)
      kb (Sum.inr (Except.error er)) er rfl BTreeMap.insert ps n 0 BTreeMap.new rest
      [Ev.mapFrame (List.length ps + n + 1)]
    simp only [Nat.zero_add] at h
    simp [BTreeMap.decode, streamDec_map, h]
  · intro ps er n rest
    have h := decodeMapElts_keyFail e0 (exlDec e0) (fun k => Sum.inl (Except.ok k))
      (exrDec e0) (fun v => Sum.inr (Except.ok v)) (fun _ => rfl) (fun _ => rfl)
      (Sum.inl (Except.error er)) er rfl HashMap.insert ps n 0
      (HashMap.with_capacity_and_hasher (List.length ps + n + 1)) rest
      [Ev.mapFrame (List.length ps + n + 1)]
    simp only [Nat.zero_add] at h
    simp [HashMap.decode, streamDec_map, h]
  · intro ps kb er n rest
    have h := decodeMapElts_valFail e0 (exlDec e0) (fun k => Sum.inl (Except.ok k))
      (exrDec e0) (fun v => Sum.inr (Except.ok v)) (fun _ => rfl) (fun _ => rfl)
      kb (Sum.inr (Except.error er)) er rfl HashMap.insert ps n 0
      (HashMap.with_capacity_and_hasher (List.length ps + n + 1)) rest
      [Ev.mapFrame (List.length ps + n + 1)]
    simp only [Nat.zero_add] at h
    simp [HashMap.decode, streamDec_map, h]
  · intro ps er n rest
    have h := decodeMapElts_keyFail e0 (exlDec e0) (fun k => Sum.inl (Except.ok k))
      (exrDec e0) (fun v => Sum.inr (Except.ok v)) (fun _ => rfl) (fun _ => rfl)
      (Sum.inl (Except.error er)) er rfl VecMap.insert ps n 0 VecMap.new rest
      [Ev.mapFrame (List.length ps + n + 1)]
    simp only [Nat.zero_add] at h
    simp [VecMap.decode, streamDec_map, h]
  · intro ps kb er n rest
    have h := decodeMapElts_valFail e0 (exlDec e0) (fun k => Sum.inl (Except.ok k))
      (exrDec e0) (fun v => Sum.inr (Except.ok v)) (fun _ => rfl) (fun _ => rfl)
      kb (Sum.inr (Except.error er)) er rfl VecMap.insert ps n 0 VecMap.new rest
      [Ev.mapFrame (List.length ps + n + 1)]
    simp only [Nat.zero_add] at h
    simp [VecMap.decode, streamDec_map, h]
  · intro k er rest
    have h := encodeSeqElts_fail id er k rest 0
      [Ev.seqFrame (List.length (List.replicate k (Except.ok ()) ++ Except.error er :: rest))]
    simp at h
    simp [DList.encode, traceEnc_seq, h]
  · intro k er rest
    have h := encodeSeqElts_fail id er k rest 0
      [Ev.seqFrame (List.length (List.replicate k (Except.ok ()) ++ Except.error er :: rest))]
    simp at h
    simp [RingBuf.encode, traceEnc_seq, h]
  · intro k er rest
    have h := encodeSeqElts_fail id er k rest 0
      [Ev.seqFrame (List.length (List.replicate k (Except.ok ()) ++ Except.error er :: rest))]
    simp at h
    simp [BTreeSet.encode, BTreeSet.len, traceEnc_seq, h]
  · intro k er c rest
    have h := encodeSeqElts_fail id er k rest 0
      [Ev.seqFrame (List.length (List.replicate k (Except.ok ()) ++ Except.error er :: rest))]
    simp at h
    simp [HashSet.encode, HashSet.len, traceEnc_seq, h]
  · intro ks kb er rest
    have h := encodeMapElts_valFail Sum.inl Sum.inr er ks kb rest 0
      [Ev.mapFrame (List.length (List.map (fun k => (k, Except.ok ())) ks
          ++ (kb, Except.error er) :: rest))]
    simp at h
    simp [BTreeMap.encode, BTreeMap.len, traceEnc_map, h]
  · intro ks kb er c rest
    have h := encodeMapElts_valFail Sum.inl Sum.inr er ks kb rest 0
      [Ev.mapFrame (List.length (List.map (fun k => (k, Except.ok ())) ks
          ++ (kb, Except.error er) :: rest))]
    simp at h
    simp [HashMap.encode, HashMap.len, traceEnc_map, h]
  · intro ks kb er rest
    have h := encodeMapElts_valFail Sum.inl Sum.inr er ks kb rest 0
      [Ev.mapFrame (List.length (List.map (fun k => (k, Except.ok ())) ks
          ++ (kb, Except.error er) :: rest))]
    simp at h
    simp [VecMap.encode, VecMap.len, BTreeMap.len, traceEnc_map, h]
  · intro g ps kb vb er rest hok hkb
    have h := encodeMapElts_keyFail g Sum.inl Sum.inr er kb hkb vb rest ps hok 0
      [Ev.mapFrame (List.length (ps ++ (kb, vb) :: rest))]
    simp at h
    simp [BTreeMap.encode, BTreeMap.len, traceEnc_map, h]
  · intro g ps kb vb er c rest hok hkb
    have h := encodeMapElts_keyFail g Sum.inl Sum.inr er kb hkb vb rest ps hok 0
      [Ev.mapFrame (List.length (ps ++ (kb, vb) :: rest))]
    simp at h
    simp [HashMap.encode, HashMap.len, traceEnc_map, h]
  · intro g ps kb vb er rest hok hkb
    have h := encodeMapElts_keyFail g Sum.inl Sum.inr er kb hkb vb rest ps hok 0
      [Ev.mapFrame (List.length (ps ++ (kb, vb) :: rest))]
    simp at h
    simp [VecMap.encode, VecMap.len, BTreeMap.len, traceEnc_map, h]

/-- C8: the sorted-map scenario.  The map 1 to "a", 2 to "b", 3 to "c" is
the same whether built in ascending or scrambled insertion order; its
encode opens a 3-pair frame and issues exactly 3 key and 3 value visits
with indices 0, 1, 2, the keys visited in ascending order 1, 2, 3; decode
of the resulting frame reconstructs the map.  In general, a well-formed
BTreeMap encodes its entries in ascending key order: the trace is the
frame followed by the entry tokens, and the visited key list is strictly
increasing. -/
theorem claim_C8_sorted_map_scenario {ε κ ν υ : Type} [LinearOrder κ] :
    (BTreeMap.insert (BTreeMap.insert (BTreeMap.insert BTreeMap.new 2 "b") 3 "c") 1 "a"
      = ([(1, "a"), (2, "b"), (3, "c")] : BTreeMap Nat String))
    ∧ (BTreeMap.insert (BTreeMap.insert (BTreeMap.insert BTreeMap.new 1 "a") 2 "b") 3 "c"
      = ([(1, "a"), (2, "b"), (3, "c")] : BTreeMap Nat String))
    ∧ (BTreeMap.encode (traceEnc : EncoderOps (List (Ev (Nat ⊕ String))) Unit)
        (atomEnc Sum.inl) (atomEnc Sum.inr)
        ([(1, "a"), (2, "b"), (3, "c")] : BTreeMap Nat String) []
      = (Except.ok (),
         [Ev.mapFrame 3,
          Ev.mapKey 0, Ev.atom (Sum.inl 1), Ev.mapVal 0, Ev.atom (Sum.inr "a"),
          Ev.mapKey 1, Ev.atom (Sum.inl 2), Ev.mapVal 1, Ev.atom (Sum.inr "b"),
          Ev.mapKey 2, Ev.atom (Sum.inl 3), Ev.mapVal 2, Ev.atom (Sum.inr "c")]))
    ∧ ((BTreeMap.decode (streamDec ()) (atomDec () (inlDec ())) (atomDec () (inrDec ()))
        ([Ev.mapFrame 3,
          Ev.mapKey 0, Ev.atom (Sum.inl 1), Ev.mapVal 0, Ev.atom (Sum.inr "a"),
          Ev.mapKey 1, Ev.atom (Sum.inl 2), Ev.mapVal 1, Ev.atom (Sum.inr "b"),
          Ev.mapKey 2, Ev.atom (Sum.inl 3), Ev.mapVal 2, Ev.atom (Sum.inr "c")], [])).1
      = Except.ok ([(1, "a"), (2, "b"), (3, "c")] : BTreeMap Nat String))
    ∧ (∀ (gK : κ → υ) (gV : ν → υ) (m : BTreeMap κ ν), BTreeMap.WF m →
      BTreeMap.encode (traceEnc : EncoderOps (List (Ev υ)) ε) (atomEnc gK) (atomEnc gV) m []
        = (Except.ok (), Ev.mapFrame (BTreeMap.len m) :: mapTokens gK gV m 0)
      ∧ (List.map Prod.fst m).Pairwise (fun a b => a < b)) := by
  refine ⟨rfl, rfl, rfl, rfl, ?_⟩
  intro gK gV m hWF
  constructor
  · simp [BTreeMap.encode, traceEnc_map, encodeMapElts_trace, BTreeMap.len]
  · exact List.pairwise_map.mpr hWF

/-- C9: hashed decode pre-sizes the destination to the reported length —
the decoded container's capacity is exactly the announced length, never
grown during the fill — and the resulting entries (hence membership) are
identical to those obtained without any pre-sizing. -/
theorem claim_C9_presize {ε κ ν α : Type} [DecidableEq κ] [DecidableEq α] (e0 : ε) :
    (∀ ps : List (κ × ν),
      (HashMap.decode (streamDec e0) (atomDec e0 (inlDec e0)) (atomDec e0 (inrDec e0))
          (Ev.mapFrame (List.length ps) :: mapTokens Sum.inl Sum.inr ps 0, [])).1
        = Except.ok (List.foldl (fun c p => HashMap.insert c p.1 p.2)
            (HashMap.with_capacity_and_hasher (List.length ps)) ps)
      ∧ (List.foldl (fun c p => HashMap.insert c p.1 p.2)
           (HashMap.with_capacity_and_hasher (List.length ps)) ps).cap = List.length ps
      ∧ (List.foldl (fun c p => HashMap.insert c p.1 p.2)
           (HashMap.with_capacity_and_hasher (List.length ps)) ps).entries
          = (List.foldl (fun c p => HashMap.insert c p.1 p.2)
              (HashMap.with_capacity_and_hasher 0) ps).entries)
    ∧ (∀ as : List α,
      (HashSet.decode (streamDec e0) (atomDec e0 Except.ok)
          (Ev.seqFrame (List.length as) :: seqTokens id as 0, [])).1
        = Except.ok (List.foldl HashSet.insert
            (HashSet.with_capacity_and_hasher (List.length as)) as)
      ∧ (List.foldl HashSet.insert
           (HashSet.with_capacity_and_hasher (List.length as)) as).cap = List.length as
      ∧ (List.foldl HashSet.insert
           (HashSet.with_capacity_and_hasher (List.length as)) as).elems
          = (List.foldl HashSet.insert (HashSet.with_capacity_and_hasher 0) as).elems) := by
  refine ⟨?_, ?_⟩
  · intro ps
    refine ⟨?_, ?_, ?_⟩
    · simp [HashMap.decode, streamDec_map,
        decodeMapElts_rt_nil e0 (inlDec e0) Sum.inl (inrDec e0) Sum.inr
          (fun _ => rfl) (fun _ => rfl) HashMap.insert ps]
    · simpa [HashMap.with_capacity_and_hasher] using
        hashMap_foldl_cap ps (HashMap.with_capacity_and_hasher (List.length ps))
          (by simp [HashMap.with_capacity_and_hasher])
    · exact hashMap_foldl_entries_congr ps _ _ (by simp [HashMap.with_capacity_and_hasher])
  · intro as
    refine ⟨?_, ?_, ?_⟩
    · simp [HashSet.decode, streamDec_seq,
        decodeSeqElts_rt_nil e0 Except.ok id (fun _ => rfl) HashSet.insert as]
    · simpa [HashSet.with_capacity_and_hasher] using
        hashSet_foldl_cap as (HashSet.with_capacity_and_hasher (List.length as))
          (by simp [HashSet.with_capacity_and_hasher])
    · exact hashSet_foldl_elems_congr as _ _ (by simp [HashSet.with_capacity_and_hasher])

/-- C10: map decodes over a stream with duplicate keys still succeed,
still issue all announced key and value reads (the full read log), and
the resulting map binds each key to the value of its last occurrence in
the stream; set decodes collapse duplicates (membership equals membership
in the stream, the result is duplicate-free), so the decoded size is at
most — and can be strictly less than — the announced length. -/
theorem claim_C10_duplicates {ε κ ν α : Type} [LinearOrder κ] [LinearOrder α]
    [DecidableEq κ] [DecidableEq α] (e0 : ε) :
    (∀ ps : List (κ × ν),
      BTreeMap.decode (streamDec e0) (atomDec e0 (inlDec e0)) (atomDec e0 (inrDec e0))
          (Ev.mapFrame (List.length ps) :: mapTokens Sum.inl Sum.inr ps 0, [])
        = (Except.ok (List.foldl (fun c p => BTreeMap.insert c p.1 p.2) BTreeMap.new ps),
           ([], Ev.mapFrame (List.length ps) :: mapReadLog (List.length ps) 0))
      ∧ (∀ k : κ,
          BTreeMap.get (List.foldl (fun c p => BTreeMap.insert c p.1 p.2) BTreeMap.new ps) k
            = lastGet ps k)
      ∧ BTreeMap.len (List.foldl (fun c p => BTreeMap.insert c p.1 p.2) BTreeMap.new ps)
          ≤ List.length ps)
    ∧ (∀ ps : List (κ × ν),
      (HashMap.decode (streamDec e0) (atomDec e0 (inlDec e0)) (atomDec e0 (inrDec e0))
          (Ev.mapFrame (List.length ps) :: mapTokens Sum.inl Sum.inr ps 0, [])).2.2
        = Ev.mapFrame (List.length ps) :: mapReadLog (List.length ps) 0
      ∧ (∀ k : κ,
          HashMap.get (List.foldl (fun c p => HashMap.insert c p.1 p.2)
              (HashMap.with_capacity_and_hasher (List.length ps)) ps) k
            = lastGet ps k)
      ∧ HashMap.len (List.foldl (fun c p => HashMap.insert c p.1 p.2)
            (HashMap.with_capacity_and_hasher (List.length ps)) ps)
          ≤ List.length ps)
    ∧ (∀ ps : List (Nat × ν),
      (∀ k : Nat,
          VecMap.get (List.foldl (fun c p => VecMap.insert c p.1 p.2) VecMap.new ps) k
            = lastGet ps k)
      ∧ VecMap.len (List.foldl (fun c p => VecMap.insert c p.1 p.2) VecMap.new ps)
          ≤ List.length ps)
    ∧ (∀ as : List α,
      BTreeSet.decode (streamDec e0) (atomDec e0 Except.ok)
          (Ev.seqFrame (List.length as) :: seqTokens id as 0, [])
        = (Except.ok (List.foldl BTreeSet.insert BTreeSet.new as),
           ([], Ev.seqFrame (List.length as)
              :: (List.range (List.length as)).map Ev.seqElt))
      ∧ (∀ x : α, x ∈ List.foldl BTreeSet.insert BTreeSet.new as ↔ x ∈ as)
      ∧ (List.foldl BTreeSet.insert BTreeSet.new as).Nodup
      ∧ BTreeSet.len (List.foldl BTreeSet.insert BTreeSet.new as) ≤ List.length as)
    ∧ (∀ as : List α,
      (∀ x : α, x ∈ (List.foldl HashSet.insert
            (HashSet.with_capacity_and_hasher (List.length as)) as).elems ↔ x ∈ as)
      ∧ (List.foldl HashSet.insert
           (HashSet.with_capacity_and_hasher (List.length as)) as).elems.Nodup
      ∧ HashSet.len (List.foldl HashSet.insert
            (HashSet.with_capacity_and_hasher (List.length as)) as) ≤ List.length as)
    ∧ BTreeMap.len (List.foldl (fun c p => BTreeMap.insert c p.1 p.2) BTreeMap.new
        [((7 : Nat), (1 : Nat)), (7, 2)]) = 1 := by
  have hstepB : ∀ (c : BTreeMap κ ν) (k' : κ) (v : ν) (k'' : κ),
      BTreeMap.get (BTreeMap.insert c k' v) k''
        = if k'' = k' then some v else BTreeMap.get c k'' := by
    intro c k' v k''
    simp [BTreeMap.get, BTreeMap.insert, insertSorted_get]
  have hstepH : ∀ (c : HashMap κ ν) (k' : κ) (v : ν) (k'' : κ),
      HashMap.get (HashMap.insert c k' v) k''
        = if k'' = k' then some v else HashMap.get c k'' := by
    intro c k' v k''
    simp [HashMap.get, HashMap.insert, assocUpd_get]
  have hstepV : ∀ (c : VecMap ν) (k' : Nat) (v : ν) (k'' : Nat),
      VecMap.get (VecMap.insert c k' v) k''
        = if k'' = k' then some v else VecMap.get c k'' := by
    intro c k' v k''
    simp [VecMap.get, VecMap.insert, BTreeMap.get, BTreeMap.insert, insertSorted_get]
  refine ⟨?_, ?_, ?_, ?_, ?_, by rfl⟩
  · intro ps
    refine ⟨?_, ?_, ?_⟩
    · simp [BTreeMap.decode, streamDec_map,
        decodeMapElts_rt_nil e0 (inlDec e0) Sum.inl (inrDec e0) Sum.inr
          (fun _ => rfl) (fun _ => rfl) BTreeMap.insert ps]
    · intro k
      rw [foldl_get_last BTreeMap.get BTreeMap.insert hstepB ps BTreeMap.new k]
      cases hl : lastGet ps k <;> simp [BTreeMap.get, BTreeMap.new, assocGet]
    · simpa [BTreeMap.new, BTreeMap.len] using
        foldl_pair_size_le BTreeMap.len BTreeMap.insert
          (fun c k v => by simpa [BTreeMap.len, BTreeMap.insert]
            using insertSorted_len_le c k v) ps BTreeMap.new
  · intro ps
    refine ⟨?_, ?_, ?_⟩
    · simp [HashMap.decode, streamDec_map,
        decodeMapElts_rt_nil e0 (inlDec e0) Sum.inl (inrDec e0) Sum.inr
          (fun _ => rfl) (fun _ => rfl) HashMap.insert ps]
    · intro k
      rw [foldl_get_last HashMap.get HashMap.insert hstepH ps
        (HashMap.with_capacity_and_hasher (List.length ps)) k]
      cases hl : lastGet ps k <;>
        simp [HashMap.get, HashMap.with_capacity_and_hasher, assocGet]
    · simpa [HashMap.with_capacity_and_hasher, HashMap.len] using
        foldl_pair_size_le HashMap.len HashMap.insert
          (fun c k v => by simpa [HashMap.len, HashMap.insert]
            using assocUpd_len_le c.entries k v) ps
          (HashMap.with_capacity_and_hasher (List.length ps))
  · intro ps
    refine ⟨?_, ?_⟩
    · intro k
      rw [foldl_get_last VecMap.get VecMap.insert hstepV ps VecMap.new k]
      cases hl : lastGet ps k <;>
        simp [VecMap.get, VecMap.new, BTreeMap.get, BTreeMap.new, assocGet]
    · simpa [VecMap.new, BTreeMap.new, VecMap.len, BTreeMap.len] using
        foldl_pair_size_le VecMap.len VecMap.insert
          (fun c k v => by simpa [VecMap.len, BTreeMap.len, VecMap.insert, BTreeMap.insert]
            using insertSorted_len_le c k v) ps VecMap.new
  · intro as
    refine ⟨?_, ?_, ?_, ?_⟩
    · simp [BTreeSet.decode, streamDec_seq,
        decodeSeqElts_rt_nil e0 Except.ok id (fun _ => rfl) BTreeSet.insert as,
        List.range_eq_range']
    · intro x
      have h := foldl_elem_mem (fun s : BTreeSet α => s) BTreeSet.insert
        (fun c b x => by simpa [BTreeSet.insert] using insertOrd_mem c b x) as
        BTreeSet.new x
      simpa [BTreeSet.new] using h
    · have h := btreeSet_foldl_pairwise as BTreeSet.new (by simp [BTreeSet.new])
      exact h.imp (fun hlt => ne_of_lt hlt)
    · simpa [BTreeSet.new, BTreeSet.len] using
        foldl_elem_size_le BTreeSet.len BTreeSet.insert
          (fun c a => by simpa [BTreeSet.len, BTreeSet.insert]
            using insertOrd_len_le c a) as BTreeSet.new
  · intro as
    refine ⟨?_, ?_, ?_⟩
    · intro x
      have h := foldl_elem_mem HashSet.elems HashSet.insert
        (fun c b x => by simpa [HashSet.insert] using setUpd_mem c.elems b x) as
        (HashSet.with_capacity_and_hasher (List.length as)) x
      simpa [HashSet.with_capacity_and_hasher] using h
    · exact hashSet_foldl_nodup as (HashSet.with_capacity_and_hasher (List.length as))
        (by simp [HashSet.with_capacity_and_hasher])
    · simpa [HashSet.with_capacity_and_hasher, HashSet.len] using
        foldl_elem_size_le HashSet.len HashSet.insert
          (fun c a => by simpa [HashSet.len, HashSet.insert]
            using setUpd_len_le c.elems a) as
          (HashSet.with_capacity_and_hasher (List.length as))

/-- C2 counterexample: a map decode whose frame announces 2 pairs but
whose key stream repeats key 1 succeeds and returns a map with 1 entry,
not 2 — so "decoded element/pair count equals the reported length" fails
as stated for the map kinds. -/
theorem claim_C2_counterexample :
    (BTreeMap.decode (streamDec ()) (atomDec () (inlDec ())) (atomDec () (inrDec ()))
        ([Ev.mapFrame 2,
          Ev.mapKey 0, Ev.atom (Sum.inl (1 : Nat)), Ev.mapVal 0,
          Ev.atom (Sum.inr (10 : Nat)),
          Ev.mapKey 1, Ev.atom (Sum.inl 1), Ev.mapVal 1, Ev.atom (Sum.inr 20)], [])).1
      = Except.ok ([(1, 20)] : BTreeMap Nat Nat)
    ∧ BTreeMap.len ([(1, 20)] : BTreeMap Nat Nat) ≠ 2 := by
  exact ⟨rfl, by decide⟩

/-- C2 amended: a successful decode returns, for the sequence kinds, a
container with exactly the announced number of elements; for the map and
set kinds the count is at most the announced length, with equality
whenever the decoded keys (or elements) are pairwise distinct — in
particular for every stream produced by an encode. -/
theorem claim_C2_amended {ε κ ν α : Type} [LinearOrder κ] [LinearOrder α]
    [DecidableEq κ] [DecidableEq α] (e0 : ε) :
    (∀ as : List α,
      Except.map List.length
          ((DList.decode (streamDec e0) (atomDec e0 Except.ok)
            (Ev.seqFrame (List.length as) :: seqTokens id as 0, [])).1)
        = Except.ok (List.length as))
    ∧ (∀ as : List α,
      Except.map List.length
          ((RingBuf.decode (streamDec e0) (atomDec e0 Except.ok)
            (Ev.seqFrame (List.length as) :: seqTokens id as 0, [])).1)
        = Except.ok (List.length as))
    ∧ (∀ ps : List (κ × ν),
      (BTreeMap.decode (streamDec e0) (atomDec e0 (inlDec e0)) (atomDec e0 (inrDec e0))
          (Ev.mapFrame (List.length ps) :: mapTokens Sum.inl Sum.inr ps 0, [])).1
        = Except.ok (List.foldl (fun c p => BTreeMap.insert c p.1 p.2) BTreeMap.new ps)
      ∧ BTreeMap.len (List.foldl (fun c p => BTreeMap.insert c p.1 p.2) BTreeMap.new ps)
          ≤ List.length ps
      ∧ ((ps.map Prod.fst).Nodup →
          BTreeMap.len (List.foldl (fun c p => BTreeMap.insert c p.1 p.2) BTreeMap.new ps)
            = List.length ps))
    ∧ (∀ as : List α,
      (BTreeSet.decode (streamDec e0) (atomDec e0 Except.ok)
          (Ev.seqFrame (List.length as) :: seqTokens id as 0, [])).1
        = Except.ok (List.foldl BTreeSet.insert BTreeSet.new as)
      ∧ BTreeSet.len (List.foldl BTreeSet.insert BTreeSet.new as) ≤ List.length as
      ∧ (as.Nodup →
          BTreeSet.len (List.foldl BTreeSet.insert BTreeSet.new as) = List.length as))
    ∧ (∀ ps : List (κ × ν),
      (HashMap.decode (streamDec e0) (atomDec e0 (inlDec e0)) (atomDec e0 (inrDec e0))
          (Ev.mapFrame (List.length ps) :: mapTokens Sum.inl Sum.inr ps 0, [])).1
        = Except.ok (List.foldl (fun c p => HashMap.insert c p.1 p.2)
            (HashMap.with_capacity_and_hasher (List.length ps)) ps)
      ∧ HashMap.len (List.foldl (fun c p => HashMap.insert c p.1 p.2)
            (HashMap.with_capacity_and_hasher (List.length ps)) ps)
          ≤ List.length ps
      ∧ ((ps.map Prod.fst).Nodup →
          HashMap.len (List.foldl (fun c p => HashMap.insert c p.1 p.2)
              (HashMap.with_capacity_and_hasher (List.length ps)) ps)
            = List.length ps))
    ∧ (∀ as : List α,
      (HashSet.decode (streamDec e0) (atomDec e0 Except.ok)
          (Ev.seqFrame (List.length as) :: seqTokens id as 0, [])).1
        = Except.ok (List.foldl HashSet.insert
            (HashSet.with_capacity_and_hasher (List.length as)) as)
      ∧ HashSet.len (List.foldl HashSet.insert
            (HashSet.with_capacity_and_hasher (List.length as)) as) ≤ List.length as
      ∧ (as.Nodup →
          HashSet.len (List.foldl HashSet.insert
              (HashSet.with_capacity_and_hasher (List.length as)) as) = List.length as))
    ∧ (∀ ps : List (Nat × ν),
      (VecMap.decode (streamDec e0) (atomDec e0 (inlDec e0)) (atomDec e0 (inrDec e0))
          (Ev.mapFrame (List.length ps) :: mapTokens Sum.inl Sum.inr ps 0, [])).1
        = Except.ok (List.foldl (fun c p => VecMap.insert c p.1 p.2) VecMap.new ps)
      ∧ VecMap.len (List.foldl (fun c p => VecMap.insert c p.1 p.2) VecMap.new ps)
          ≤ List.length ps
      ∧ ((ps.map Prod.fst).Nodup →
          VecMap.len (List.foldl (fun c p => VecMap.insert c p.1 p.2) VecMap.new ps)
            = List.length ps)) := by
  refine ⟨?_, ?_, ?_, ?_, ?_, ?_, ?_⟩
  · intro as
    simp [DList.decode, streamDec_seq,
      decodeSeqElts_rt_nil e0 Except.ok id (fun _ => rfl) DList.push_back as,
      dlist_foldl_push_back, DList.new, Except.map]
  · intro as
    simp [RingBuf.decode, streamDec_seq,
      decodeSeqElts_rt_nil e0 Except.ok id (fun _ => rfl) RingBuf.push_back as,
      ringBuf_foldl_push_back, RingBuf.new, Except.map]
  · intro ps
    refine ⟨?_, ?_, ?_⟩
    · simp [BTreeMap.decode, streamDec_map,
        decodeMapElts_rt_nil e0 (inlDec e0) Sum.inl (inrDec e0) Sum.inr
          (fun _ => rfl) (fun _ => rfl) BTreeMap.insert ps]
    · simpa [BTreeMap.new, BTreeMap.len] using
        foldl_pair_size_le BTreeMap.len BTreeMap.insert
          (fun c k v => by simpa [BTreeMap.len, BTreeMap.insert]
            using insertSorted_len_le c k v) ps BTreeMap.new
    · intro hnd
      have h := foldl_pair_size_nodup BTreeMap.len (fun m : BTreeMap κ ν => m.map Prod.fst)
        BTreeMap.insert
        (fun c k v hk => by simpa [BTreeMap.len, BTreeMap.insert]
          using insertSorted_len_fresh c k v hk)
        (fun c k v x hx => insertSorted_keys_sub c k v x
          (by simpa [BTreeMap.insert] using hx))
        ps BTreeMap.new hnd (by simp [BTreeMap.new])
      simpa [BTreeMap.new, BTreeMap.len] using h
  · intro as
    refine ⟨?_, ?_, ?_⟩
    · simp [BTreeSet.decode, streamDec_seq,
        decodeSeqElts_rt_nil e0 Except.ok id (fun _ => rfl) BTreeSet.insert as]
    · simpa [BTreeSet.new, BTreeSet.len] using
        foldl_elem_size_le BTreeSet.len BTreeSet.insert
          (fun c a => by simpa [BTreeSet.len, BTreeSet.insert]
            using insertOrd_len_le c a) as BTreeSet.new
    · intro hnd
      have h := foldl_elem_size_nodup BTreeSet.len (fun s : BTreeSet α => s)
        BTreeSet.insert
        (fun c a ha => by simpa [BTreeSet.len, BTreeSet.insert]
          using insertOrd_len_fresh c a ha)
        (fun c a x hx => (insertOrd_mem c a x).mp (by simpa [BTreeSet.insert] using hx))
        as BTreeSet.new hnd (by simp [BTreeSet.new])
      simpa [BTreeSet.new, BTreeSet.len] using h
  · intro ps
    refine ⟨?_, ?_, ?_⟩
    · simp [HashMap.decode, streamDec_map,
        decodeMapElts_rt_nil e0 (inlDec e0) Sum.inl (inrDec e0) Sum.inr
          (fun _ => rfl) (fun _ => rfl) HashMap.insert ps]
    · simpa [HashMap.with_capacity_and_hasher, HashMap.len] using
        foldl_pair_size_le HashMap.len HashMap.insert
          (fun c k v => by simpa [HashMap.len, HashMap.insert]
            using assocUpd_len_le c.entries k v) ps
          (HashMap.with_capacity_and_hasher (List.length ps))
    · intro hnd
      have h := foldl_pair_size_nodup HashMap.len
        (fun m : HashMap κ ν => m.entries.map Prod.fst) HashMap.insert
        (fun c k v hk => by simpa [HashMap.len, HashMap.insert]
          using assocUpd_len_fresh c.entries k v hk)
        (fun c k v x hx => assocUpd_keys_sub c.entries k v x
          (by simpa [HashMap.insert] using hx))
        ps (HashMap.with_capacity_and_hasher (List.length ps)) hnd
        (by simp [HashMap.with_capacity_and_hasher])
      simpa [HashMap.with_capacity_and_hasher, HashMap.len] using h
  · intro as
    refine ⟨?_, ?_, ?_⟩
    · simp [HashSet.decode, streamDec_seq,
        decodeSeqElts_rt_nil e0 Except.ok id (fun _ => rfl) HashSet.insert as]
    · simpa [HashSet.with_capacity_and_hasher, HashSet.len] using
        foldl_elem_size_le HashSet.len HashSet.insert
          (fun c a => by simpa [HashSet.len, HashSet.insert]
            using setUpd_len_le c.elems a) as
          (HashSet.with_capacity_and_hasher (List.length as))
    · intro hnd
      have h := foldl_elem_size_nodup HashSet.len (fun s : HashSet α => s.elems)
        HashSet.insert
        (fun c a ha => by simpa [HashSet.len, HashSet.insert]
          using setUpd_len_fresh c.elems a ha)
        (fun c a x hx => (setUpd_mem c.elems a x).mp
          (by simpa [HashSet.insert] using hx))
        as (HashSet.with_capacity_and_hasher (List.length as)) hnd
        (by simp [HashSet.with_capacity_and_hasher])
      simpa [HashSet.with_capacity_and_hasher, HashSet.len] using h
  · intro ps
    refine ⟨?_, ?_, ?_⟩
    · simp [VecMap.decode, streamDec_map,
        decodeMapElts_rt_nil e0 (inlDec e0) Sum.inl (inrDec e0) Sum.inr
          (fun _ => rfl) (fun _ => rfl) VecMap.insert ps]
    · simpa [VecMap.new, BTreeMap.new, VecMap.len, BTreeMap.len] using
        foldl_pair_size_le VecMap.len VecMap.insert
          (fun c k v => by simpa [VecMap.len, BTreeMap.len, VecMap.insert, BTreeMap.insert]
            using insertSorted_len_le c k v) ps VecMap.new
    · intro hnd
      have h := foldl_pair_size_nodup VecMap.len
        (fun m : VecMap ν => m.map Prod.fst) VecMap.insert
        (fun c k v hk => by simpa [VecMap.len, BTreeMap.len, VecMap.insert, BTreeMap.insert]
          using insertSorted_len_fresh c k v hk)
        (fun c k v x hx => insertSorted_keys_sub c k v x
          (by simpa [VecMap.insert, BTreeMap.insert] using hx))
        ps VecMap.new hnd (by simp [VecMap.new, BTreeMap.new])
      simpa [VecMap.new, BTreeMap.new, VecMap.len, BTreeMap.len] using h

/-- Witness for C1: the round trip evaluated at concrete containers of
every kind, the well-formedness hypotheses discharged by computation. -/
theorem claim_C1_round_trip_witness :
    ((DList.decode (streamDec ()) (atomDec () Except.ok)
        ((DList.encode (traceEnc : EncoderOps (List (Ev Nat)) Unit) (atomEnc id)
            ([5, 5, 2] : DList Nat) []).2, [])).1
      = Except.ok ([5, 5, 2] : DList Nat))
    ∧ ((RingBuf.decode (streamDec ()) (atomDec () Except.ok)
        ((RingBuf.encode (traceEnc : EncoderOps (List (Ev Nat)) Unit) (atomEnc id)
            ([9, 1] : RingBuf Nat) []).2, [])).1
      = Except.ok ([9, 1] : RingBuf Nat))
    ∧ ((BTreeMap.decode (streamDec ()) (atomDec () (inlDec ())) (atomDec () (inrDec ()))
        ((BTreeMap.encode (traceEnc : EncoderOps (List (Ev (Nat ⊕ Nat))) Unit)
            (atomEnc Sum.inl) (atomEnc Sum.inr)
            ([(1, 10), (3, 30)] : BTreeMap Nat Nat) []).2, [])).1
      = Except.ok ([(1, 10), (3, 30)] : BTreeMap Nat Nat))
    ∧ ((BTreeSet.decode (streamDec ()) (atomDec () Except.ok)
        ((BTreeSet.encode (traceEnc : EncoderOps (List (Ev Nat)) Unit) (atomEnc id)
            ([2, 4] : BTreeSet Nat) []).2, [])).1
      = Except.ok ([2, 4] : BTreeSet Nat))
    ∧ ((HashMap.decode (streamDec ()) (atomDec () (inlDec ())) (atomDec () (inrDec ()))
        ((HashMap.encode (traceEnc : EncoderOps (List (Ev (Nat ⊕ Nat))) Unit)
            (atomEnc Sum.inl) (atomEnc Sum.inr)
            ({ entries := [(8, 80), (3, 33)], cap := 7 } : HashMap Nat Nat) []).2, [])).1
      = Except.ok ({ entries := [(8, 80), (3, 33)], cap := 2 } : HashMap Nat Nat))
    ∧ ((HashSet.decode (streamDec ()) (atomDec () Except.ok)
        ((HashSet.encode (traceEnc : EncoderOps (List (Ev Nat)) Unit) (atomEnc id)
            ({ elems := [6, 0], cap := 11 } : HashSet Nat) []).2, [])).1
      = Except.ok ({ elems := [6, 0], cap := 2 } : HashSet Nat))
    ∧ ((VecMap.decode (streamDec ()) (atomDec () (inlDec ())) (atomDec () (inrDec ()))
        ((VecMap.encode (traceEnc : EncoderOps (List (Ev (Nat ⊕ Nat))) Unit)
            (atomEnc Sum.inl) (atomEnc Sum.inr) ([(0, 5), (4, 6)] : VecMap Nat) []).2,
          [])).1
      = Except.ok ([(0, 5), (4, 6)] : VecMap Nat)) := by
  refine ⟨?_, ?_, ?_, ?_, ?_, ?_, ?_⟩
  · exact (@claim_C1_round_trip Unit Nat Nat Nat _ _ _ _ ()).1 [5, 5, 2]
  · exact (@claim_C1_round_trip Unit Nat Nat Nat _ _ _ _ ()).2.1 [9, 1]
  · exact (@claim_C1_round_trip Unit Nat Nat Nat _ _ _ _ ()).2.2.1 [(1, 10), (3, 30)]
      (by decide)
  · exact (@claim_C1_round_trip Unit Nat Nat Nat _ _ _ _ ()).2.2.2.1 [2, 4] (by decide)
  · exact (@claim_C1_round_trip Unit Nat Nat Nat _ _ _ _ ()).2.2.2.2.1
      { entries := [(8, 80), (3, 33)], cap := 7 } (by decide)
  · exact (@claim_C1_round_trip Unit Nat Nat Nat _ _ _ _ ()).2.2.2.2.2.1
      { elems := [6, 0], cap := 11 } (by decide)
  · exact (@claim_C1_round_trip Unit Nat Nat Nat _ _ _ _ ()).2.2.2.2.2.2 [(0, 5), (4, 6)]
      (by decide)

/-- Witness for the amended C2: a 2-pair stream with distinct keys
decodes to a map of exactly 2 entries. -/
theorem claim_C2_amended_witness :
    BTreeMap.len (List.foldl (fun c p => BTreeMap.insert c p.1 p.2) BTreeMap.new
        [((1 : Nat), (10 : Nat)), (2, 20)]) = 2 := by
  exact ((@claim_C2_amended Unit Nat Nat Nat _ _ _ _ ()).2.2.1 [(1, 10), (2, 20)]).2.2
    (by decide)

/-- Witness for C8: the general ascending-key-order statement evaluated
at a concrete well-formed map. -/
theorem claim_C8_witness :
    (BTreeMap.encode (traceEnc : EncoderOps (List (Ev (Nat ⊕ Nat))) Unit)
        (atomEnc Sum.inl) (atomEnc Sum.inr) ([(4, 40), (9, 90)] : BTreeMap Nat Nat) []
      = (Except.ok (),
         Ev.mapFrame (BTreeMap.len ([(4, 40), (9, 90)] : BTreeMap Nat Nat))
           :: mapTokens Sum.inl Sum.inr [(4, 40), (9, 90)] 0))
    ∧ (List.map Prod.fst ([(4, 40), (9, 90)] : BTreeMap Nat Nat)).Pairwise
        (fun a b => a < b) := by
  exact (@claim_C8_sorted_map_scenario Unit Nat Nat (Nat ⊕ Nat) _).2.2.2.2
    Sum.inl Sum.inr [(4, 40), (9, 90)] (by decide)

/-- Witness for C6: the key-encode failure statements evaluated at
concrete maps of each map kind, with the oracle hypotheses discharged by
computation — the key that encodes the failure is key 0, preceded by one
successfully encoded entry, and the trace stops at the failing key visit
with the value of that entry never visited. -/
theorem claim_C6_witness :
    (BTreeMap.encode (traceEnc : EncoderOps (List (Ev (Nat ⊕ Nat))) Unit)
        (oracleEnc (fun k => if k = 0 then Except.error () else Except.ok ()) Sum.inl)
        (atomEnc Sum.inr) ([(1, 10), (0, 99), (5, 50)] : BTreeMap Nat Nat) []
      = (Except.error (),
         [Ev.mapFrame 3, Ev.mapKey 0, Ev.atom (Sum.inl 1), Ev.mapVal 0,
          Ev.atom (Sum.inr 10), Ev.mapKey 1, Ev.atom (Sum.inl 0)]))
    ∧ (HashMap.encode (traceEnc : EncoderOps (List (Ev (Nat ⊕ Nat))) Unit)
        (oracleEnc (fun k => if k = 0 then Except.error () else Except.ok ()) Sum.inl)
        (atomEnc Sum.inr) ({ entries := [(1, 10), (0, 99)], cap := 4 } : HashMap Nat Nat) []
      = (Except.error (),
         [Ev.mapFrame 2, Ev.mapKey 0, Ev.atom (Sum.inl 1), Ev.mapVal 0,
          Ev.atom (Sum.inr 10), Ev.mapKey 1, Ev.atom (Sum.inl 0)]))
    ∧ (VecMap.encode (traceEnc : EncoderOps (List (Ev (Nat ⊕ Nat))) Unit)
        (oracleEnc (fun k => if k = 0 then Except.error () else Except.ok ()) Sum.inl)
        (atomEnc Sum.inr) ([(2, 7), (0, 8)] : VecMap Nat) []
      = (Except.error (),
         [Ev.mapFrame 2, Ev.mapKey 0, Ev.atom (Sum.inl 2), Ev.mapVal 0,
          Ev.atom (Sum.inr 7), Ev.mapKey 1, Ev.atom (Sum.inl 0)])) := by
  obtain ⟨_, _, _, _, _, _, _, _, _, _, _, _, _, _, _, _, _, h18, h19, h20⟩ :=
    @claim_C6_fail_fast Unit Nat Nat Nat _ _ _ _ ()
  refine ⟨?_, ?_, ?_⟩
  · exact h18 (fun k => if k = 0 then Except.error () else Except.ok ())
      [(1, 10)] 0 99 () [(5, 50)] (by simp) rfl
  · exact h19 (fun k => if k = 0 then Except.error () else Except.ok ())
      [(1, 10)] 0 99 () 4 [] (by simp) rfl
  · exact h20 (fun k => if k = 0 then Except.error () else Except.ok ())
      [(2, 7)] 0 8 () [] (by simp) rfl
